import Mathlib

/-!
# Huber-smoothed quantile regression: `src/huber-approx.cpp`

A shallow embedding of the C++ source and theorems about it.

Conventions of the embedding

* `double` values are rationals (`ℚ`): every statement is about exact arithmetic.
  Counts held in a `double` or an `int` (`n`, `p`, `num_samples`) are natural numbers.
* The rationals have no NaN and no infinities.  Where the standardization divides a column
  by a standard deviation that is zero, the code raises nothing and goes on with
  non-finite entries; the embedding stops there with `Except.error Fault.nonfinite` and
  says nothing about the rest of such a run.  Every other division is the division of
  `ℚ`; the theorems that depend on its value assume a divisor that is not zero.
* An Armadillo vector is a list of its entries, a matrix is its list of columns
  (Armadillo stores matrices column by column) together with its number of rows.
* Armadillo checks indices and sizes and throws on a violation; a throwing run is
  `Except.error Fault.shape`.  The `while` loop of the solver is run on fuel; running
  out of fuel is the separate outcome `Except.error Fault.fuel`.
* Arguments passed by reference and modified (`X`, `y`, `X_sub`, `y_sub`, the buffers
  `derivs` and `grad`) are returned next to the result.
* A vector constructed with a size only (`arma::vec grad(p)`) is zero filled, `abs` is the
  absolute value, and `Rcpp::checkUserInterrupt` does not interrupt.
* Library functions that are not part of the repository and cannot be computed over `ℚ`
  (`std::sqrt` inside `arma::stddev`, `arma::quantile`) are parameters, bundled in `Lib`;
  the concrete runs instantiate them with `lib0`.
* The two overloads of `checkfun` are `checkfun1` (scalar) and `checkfun` (vector).
-/

namespace Fqr

/-! ## Data model -/

/-- Why a run produced no value.  `shape`: Armadillo threw on an index or size check.
`fuel`: the fuel of the solver loop ran out.  `nonfinite`: the code divided a column by
zero; in floating point that raises nothing, the entries become NaN or an infinity, and the
embedding does not follow the run any further. -/
inductive Fault
  | shape
  | fuel
  | nonfinite
  deriving DecidableEq

deriving instance DecidableEq for Except

/-- An `arma::vec` (also used for `arma::rowvec`): the list of its entries. -/
abbrev Vec := List ℚ

/-- An `arma::mat`: the number of rows and the list of columns. -/
structure Mat where
  n_rows : Nat
  cols : List Vec
  deriving DecidableEq

/-- Number of columns, `X.n_cols`. -/
def Mat.n_cols (X : Mat) : Nat := X.cols.length

/-- Every column has `n_rows` entries. -/
def Mat.wf (X : Mat) : Prop := ∀ c ∈ X.cols, c.length = X.n_rows

instance (X : Mat) : Decidable X.wf := by
  unfold Mat.wf
  infer_instance

/-- Entry `X(r, c)`, zero outside the matrix. -/
def Mat.entry (X : Mat) (r c : Nat) : ℚ := (X.cols.getD c []).getD r 0

/-- The library functions the source calls that are taken as parameters. -/
structure Lib where
  /-- The square root `std::sqrt` used by `arma::stddev`. -/
  sqrt : ℚ → ℚ
  /-- The sample quantile `arma::quantile(v, q)` for the one-element `q`, read with
  `arma::as_scalar`. -/
  quantile : Vec → ℚ → ℚ

/-! ## The Armadillo operations the source uses -/

/-- Element read `v(i)`, bounds checked. -/
def vec_at (v : Vec) (i : Nat) : Except Fault ℚ :=
  match v.get? i with
  | some x => .ok x
  | none => .error .shape

/-- Element write `v(i) = x`, bounds checked. -/
def vec_set (v : Vec) (i : Nat) (x : ℚ) : Except Fault Vec :=
  if i < v.length then .ok (v.set i x) else .error .shape

/-- `arma::ones(n)`. -/
def ones (n : Nat) : Vec := List.replicate n 1

/-- A freshly constructed `arma::vec v(n)`, zero filled. -/
def zeros (n : Nat) : Vec := List.replicate n 0

/-- Vector difference `a - b`; the sizes must agree. -/
def vec_sub (a b : Vec) : Except Fault Vec :=
  if a.length = b.length then .ok (List.zipWith (fun x y => x - y) a b) else .error .shape

/-- Vector sum `a + b`; the sizes must agree. -/
def vec_add (a b : Vec) : Except Fault Vec :=
  if a.length = b.length then .ok (List.zipWith (fun x y => x + y) a b) else .error .shape

/-- Element-wise quotient `a / b`; the sizes must agree. -/
def vec_div (a b : Vec) : Except Fault Vec :=
  if a.length = b.length then .ok (List.zipWith (fun x y => x / y) a b) else .error .shape

/-- Scalar multiple `c * v`. -/
def vec_scale (c : ℚ) (v : Vec) : Vec := v.map (fun x => c * x)

/-- Inner product `arma::as_scalar(a.t() * b)`; the sizes must agree. -/
def dot (a b : Vec) : Except Fault ℚ :=
  if a.length = b.length then .ok (List.zipWith (fun x y => x * y) a b).sum else .error .shape

/-- The max norm `arma::norm(v, "inf")`. -/
def norm_inf (v : Vec) : ℚ := v.foldl (fun m x => max m |x|) 0

/-- Rows `first .. last` of a vector, `v.rows(first, last)`. -/
def vec_rows (v : Vec) (first last : Nat) : Except Fault Vec :=
  if first ≤ last ∧ last < v.length then .ok ((v.take (last + 1)).drop first) else .error .shape

/-- Removal of one row, `v.shed_row(i)`. -/
def vec_shed_row (v : Vec) (i : Nat) : Except Fault Vec :=
  if i < v.length then .ok (v.eraseIdx i) else .error .shape

/-- Insertion of `N` zero rows before row `i`, `v.insert_rows(i, N)`. -/
def vec_insert_rows (v : Vec) (i N : Nat) : Except Fault Vec :=
  if i ≤ v.length then .ok (v.take i ++ zeros N ++ v.drop i) else .error .shape

/-- The implicit C++ conversion of a `double` to the unsigned index type: the value is
truncated towards zero; the conversion is undefined when the truncated value is negative. -/
def to_uword (x : ℚ) : Except Fault Nat :=
  if x ≤ -1 then .error .shape else .ok (Int.toNat ⌊x⌋)

/-- Column read `X.col(i)`, bounds checked. -/
def Mat.col (X : Mat) (i : Nat) : Except Fault Vec :=
  match X.cols.get? i with
  | some c => .ok c
  | none => .error .shape

/-- Column write `X.col(i) = v`; the column must exist and `v` must have `n_rows` entries. -/
def Mat.set_col (X : Mat) (i : Nat) (v : Vec) : Except Fault Mat :=
  if i < X.n_cols ∧ v.length = X.n_rows then .ok { X with cols := X.cols.set i v }
  else .error .shape

/-- Removal of one column, `X.shed_col(i)`. -/
def Mat.shed_col (X : Mat) (i : Nat) : Except Fault Mat :=
  if i < X.n_cols then .ok { X with cols := X.cols.eraseIdx i } else .error .shape

/-- Insertion of `N` zero columns before column `i`, `X.insert_cols(i, N)`. -/
def Mat.insert_cols (X : Mat) (i N : Nat) : Except Fault Mat :=
  if i ≤ X.n_cols then
    .ok { X with cols := X.cols.take i ++ List.replicate N (zeros X.n_rows) ++ X.cols.drop i }
  else .error .shape

/-- Columns `first .. last`, `X.cols(first, last)`. -/
def Mat.sub_cols (X : Mat) (first last : Nat) : Except Fault Mat :=
  if first ≤ last ∧ last < X.n_cols then
    .ok { X with cols := (X.cols.take (last + 1)).drop first }
  else .error .shape

/-- The matrix `arma::join_rows(v, X)`: the column `v` followed by the columns of `X`;
the row counts must agree. -/
def join_rows (v : Vec) (X : Mat) : Except Fault Mat :=
  if v.length = X.n_rows then .ok { X with cols := v :: X.cols } else .error .shape

/-- The transpose `arma::trans(X)`. -/
def trans (X : Mat) : Mat :=
  { n_rows := X.n_cols
    cols := (List.range X.n_rows).map fun r => (List.range X.n_cols).map fun c => X.entry r c }

/-- Matrix times vector, `X * v`; `v` must have `n_cols` entries. -/
def mat_vec (X : Mat) (v : Vec) : Except Fault Vec :=
  if X.n_cols = v.length then
    .ok ((List.range X.n_rows).map fun r =>
      ((List.range X.n_cols).map fun c => X.entry r c * v.getD c 0).sum)
  else .error .shape

/-- The arithmetic mean `arma::mean(v)`. -/
def mean (v : Vec) : ℚ := v.sum / (v.length : ℚ)

/-- The column means `arma::mean(X, 0)`. -/
def col_means (X : Mat) : Vec := X.cols.map mean

/-- The sample variance with divisor `n - 1` (zero for fewer than two entries). -/
def variance (v : Vec) : ℚ :=
  if 2 ≤ v.length then ((v.map fun x => (x - mean v) ^ 2).sum) / ((v.length : ℚ) - 1) else 0

/-- The sample standard deviation `arma::stddev(v)`. -/
def stddev (lib : Lib) (v : Vec) : ℚ := lib.sqrt (variance v)

/-- The column standard deviations `arma::stddev(X, 0, 0).t()`. -/
def col_stddevs (lib : Lib) (X : Mat) : Vec := X.cols.map (stddev lib)

/-! ## `checkfun` (source lines 7-17) -/

/-- The scalar overload `checkfun(double x, double tau)`: `x * (tau - (x < 0))`. -/
def checkfun1 (x tau : ℚ) : ℚ := x * (tau - (if x < 0 then 1 else 0))

/-- The vector overload `checkfun(arma::vec& res, double tau, int n)`. -/
def checkfun (res : Vec) (tau : ℚ) (n : Nat) : Except Fault ℚ :=
  (List.range n).foldlM (fun value i => do
    let x ← vec_at res i
    pure (value + checkfun1 x tau)) 0

/-! ## `update_huber_grad` (source lines 28-48) -/

/-- The value the loop body of `update_huber_grad` stores in `derivs(i)` for the
residual `r = res(i)` (source lines 37-45). -/
def huber_deriv (r tau mu : ℚ) : ℚ :=
  if r > mu then tau
  else if r < -mu then tau - 1
  else if r ≥ 0 then r * tau / mu
  else r * (tau - 1) / mu

/-- The function `update_huber_grad`: returns the buffers `derivs` and `grad` as they are
after the call. -/
def update_huber_grad (X_t : Mat) (res derivs : Vec) (tau mu : ℚ) (n : Nat)
    (one_over_n : ℚ) : Except Fault (Vec × Vec) := do
  let derivs ← (List.range n).foldlM (fun d i => do
    let r ← vec_at res i
    vec_set d i (huber_deriv r tau mu)) derivs
  let g ← mat_vec X_t derivs
  pure (derivs, g.map fun x => x * one_over_n)

/-! ## `reorder_columns` (source lines 57-66) -/

/-- The function `reorder_columns`: returns `X` as it is after the call. -/
def reorder_columns (X : Mat) (intercept : Int) : Except Fault Mat :=
  if intercept ≠ 0 then
    let intercept := intercept - 1
    if intercept > 0 then do
      let X ← X.insert_cols intercept.toNat 1
      let X ← X.shed_col 0
      X.set_col intercept.toNat (ones X.n_rows)
    else .ok X
  else .ok X

/-! ## `huber_grad_descent` (source lines 69-139) -/

/-- The local variables of `huber_grad_descent` that live across loop iterations. -/
structure HgdState where
  beta : Vec
  last_beta : Vec
  grad : Vec
  last_grad : Vec
  derivs : Vec
  resid : Vec
  beta_diff : Vec
  grad_diff : Vec
  checkfun_diff : ℚ
  last_checkfun : ℚ
  i : Nat
  cross : ℚ
  delta : ℚ
  deriving DecidableEq

/-- The loop condition (source lines 98-99). -/
def hgd_continue (maxiter : Int) (beta_tol check_tol : ℚ) (s : HgdState) : Bool :=
  decide ((s.i : Int) < maxiter) &&
  (decide (norm_inf s.grad > beta_tol) || s.i == 1) &&
  (decide (s.checkfun_diff * s.delta > check_tol) || decide (s.delta < 1 / 100))

/-- One execution of the loop body (source lines 101-136).  The periodic call of
`Rcpp::checkUserInterrupt` is taken not to interrupt. -/
def hgd_step (X X_t : Mat) (tau mu : ℚ) (n : Nat) (one_over_n : ℚ) (s : HgdState) :
    Except Fault HgdState := do
  let delta ←
    if s.cross > 0 then do
      let gg ← dot s.grad_diff s.grad_diff
      let bb ← dot s.beta_diff s.beta_diff
      let a1 := s.cross / gg
      let a2 := bb / s.cross
      pure (min (min a1 a2) 2)
    else pure 1
  let last_grad := s.grad
  let (derivs, grad) ← update_huber_grad X_t s.resid s.derivs tau mu n one_over_n
  let beta_diff ← vec_sub s.beta s.last_beta
  let grad_diff ← vec_sub grad last_grad
  let beta ← vec_add s.beta (vec_scale (((s.i : ℚ) - 1) / ((s.i : ℚ) + 2)) beta_diff)
  let beta ← vec_add beta (vec_scale delta grad)
  let beta_diff ← vec_add beta_diff (vec_scale delta grad)
  let Xbd ← mat_vec X beta_diff
  let resid ← vec_sub s.resid Xbd
  let last_beta := beta
  let this_checkfun ← checkfun resid tau n
  let checkfun_diff := |s.last_checkfun - this_checkfun|
  let last_checkfun := this_checkfun
  let i := s.i + 1
  let cross ← dot beta_diff grad_diff
  pure
    { beta := beta, last_beta := last_beta, grad := grad, last_grad := last_grad,
      derivs := derivs, resid := resid, beta_diff := beta_diff, grad_diff := grad_diff,
      checkfun_diff := checkfun_diff, last_checkfun := last_checkfun, i := i,
      cross := cross, delta := delta }

/-- The `while` loop on fuel: the condition is tested, the body run, and so on; with no
fuel left and the condition still true the outcome is `Fault.fuel`. -/
def hgd_loop (X X_t : Mat) (tau mu : ℚ) (n : Nat) (one_over_n : ℚ) (maxiter : Int)
    (beta_tol check_tol : ℚ) : Nat → HgdState → Except Fault HgdState
  | 0, s => if hgd_continue maxiter beta_tol check_tol s then .error .fuel else .ok s
  | fuel + 1, s =>
    if hgd_continue maxiter beta_tol check_tol s then do
      let s ← hgd_step X X_t tau mu n one_over_n s
      hgd_loop X X_t tau mu n one_over_n maxiter beta_tol check_tol fuel s
    else .ok s

/-- The state on loop entry (source lines 77-96). -/
def hgd_init (y : Vec) (X : Mat) (beta : Vec) (tau : ℚ) (n p : Nat) :
    Except Fault HgdState := do
  let grad := zeros p
  let last_beta := beta
  let last_grad := grad
  let derivs := zeros n
  let Xb ← mat_vec X beta
  let resid ← vec_sub y Xb
  let beta_diff := zeros p
  let grad_diff := zeros p
  let checkfun_diff ← checkfun resid tau n
  let last_checkfun := checkfun_diff
  pure
    { beta := beta, last_beta := last_beta, grad := grad, last_grad := last_grad,
      derivs := derivs, resid := resid, beta_diff := beta_diff, grad_diff := grad_diff,
      checkfun_diff := checkfun_diff, last_checkfun := last_checkfun, i := 1,
      cross := 0, delta := min (1 / tau) (1 / (1 - tau)) }

/-- The function `huber_grad_descent`.  The loop gets `maxiter` units of fuel. -/
def huber_grad_descent (y : Vec) (X X_t : Mat) (beta : Vec) (tau : ℚ) (n : Nat)
    (one_over_n : ℚ) (p : Nat) (maxiter : Int) (mu beta_tol check_tol : ℚ) :
    Except Fault Vec := do
  let s ← hgd_init y X beta tau n p
  let s ← hgd_loop X X_t tau mu n one_over_n maxiter beta_tol check_tol maxiter.toNat s
  pure s.beta

/-! ## `fit_approx_quantile_model` (source lines 161-290) -/

/-- The arguments of `fit_approx_quantile_model`. -/
structure FitArgs where
  X : Mat
  y : Vec
  X_sub : Mat
  y_sub : Vec
  tau : ℚ
  init_beta : Vec
  mu : ℚ
  maxiter : Int
  beta_tol : ℚ
  check_tol : ℚ
  intercept : Int
  num_samples : Nat
  warm_start : Int
  deriving DecidableEq

/-- What a call of `fit_approx_quantile_model` leaves behind: the returned vector, the
arguments passed by reference as they are on return, and the `maxiter` argument of every
call of `huber_grad_descent` in the order of the calls. -/
structure FitResult where
  beta : Vec
  X : Mat
  y : Vec
  X_sub : Mat
  y_sub : Vec
  solver_maxiter : List Int
  deriving DecidableEq

/-- The forward transformation of one column, `(X.col(i) - m) / s` (source lines 200, 203).
The source divides without a test of `s`: with `s = 0` the entries of the result are NaN or
an infinity, which is the outcome `Fault.nonfinite`. -/
def standardize_col (c : Vec) (m s : ℚ) : Except Fault Vec :=
  if s = 0 then .error .nonfinite else .ok (c.map fun x => (x - m) / s)

/-- The backward transformation of one column, `(X.col(i) + m) * s` (source lines 267, 276). -/
def unstandardize_col (c : Vec) (m s : ℚ) : Vec := c.map fun x => (x + m) * s

/-- The loop of source lines 199-205: column `i` of `X`, and of `X_sub` on a warm start,
is standardized with `mx(i)` and `sx(i)`. -/
def standardize_loop (mx sx : Vec) (warm_start : Int) (X X_sub : Mat) :
    Except Fault (Mat × Mat) :=
  (List.range X.n_cols).foldlM (fun (acc : Mat × Mat) i => do
    let m ← vec_at mx i
    let s ← vec_at sx i
    let c ← acc.1.col i
    let z ← standardize_col c m s
    let X ← acc.1.set_col i z
    if warm_start = 1 then do
      let c_sub ← acc.2.col i
      let z_sub ← standardize_col c_sub m s
      let X_sub ← acc.2.set_col i z_sub
      pure (X, X_sub)
    else pure (X, acc.2)) (X, X_sub)

/-- The loops of source lines 264-268 (`first = 1`, `shift = 1`) and 273-277
(`first = 0`, `shift = 0`): column `i` is transformed back with `mx(i - shift)` and
`sx(i - shift)` for `i = first, ..., last - 1`. -/
def unstandardize_loop (mx sx : Vec) (first last shift : Nat) (X : Mat) : Except Fault Mat :=
  ((List.range last).drop first).foldlM (fun (X : Mat) i => do
    let m ← vec_at mx (i - shift)
    let s ← vec_at sx (i - shift)
    let c ← X.col i
    X.set_col i (unstandardize_col c m s)) X

/-- The statements of source lines 285-286, `beta.insert_rows(intercept - 1, beta(0))` and
`beta.shed_row(0)`.  Armadillo declares `insert_rows(row, N)`, which inserts `N` zero
rows, and `insert_rows(row, X)` for a matrix expression `X`; the `double` argument
`beta(0)` selects the former and is converted to the row count. -/
def reorder_coefficients (beta : Vec) (intercept : Int) : Except Fault Vec := do
  let b0 ← vec_at beta 0
  let N ← to_uword b0
  let beta ← vec_insert_rows beta (intercept - 1).toNat N
  vec_shed_row beta 0

/-- For comparison only, not used by the model of `fit_approx_quantile_model`: the
statements of source lines 285-286 if `insert_rows` inserted the value `beta(0)` as one
row at `intercept - 1` rather than that many zero rows. -/
def reorder_coefficients_by_value (beta : Vec) (intercept : Int) : Except Fault Vec := do
  let b0 ← vec_at beta 0
  let i := (intercept - 1).toNat
  let beta ← if i ≤ beta.length then pure (beta.take i ++ b0 :: beta.drop i)
    else throw Fault.shape
  vec_shed_row beta 0

/-- The local variables of `fit_approx_quantile_model` after standardization (source
lines 176-226); `X`, `y`, `X_sub`, `y_sub` are the by-reference arguments as they are then. -/
structure Prepared where
  p : Nat
  n : Nat
  one_over_n : ℚ
  X : Mat
  X_sub : Mat
  y : Vec
  y_sub : Vec
  mx : Vec
  sx : Vec
  my : ℚ
  X_t : Mat
  deriving DecidableEq

/-- Source lines 176-226: the intercept column is removed, the columns are standardized,
the response is centred, the ones column is put first and the transpose is taken. -/
def fit_prepare (lib : Lib) (a : FitArgs) : Except Fault Prepared := do
  let p := a.X.n_cols
  let n := a.X.n_rows
  let one_over_n : ℚ := 1 / (n : ℚ)
  -- lines 184-191: remove the intercept column
  let (X, X_sub) ←
    if a.intercept > 0 then do
      let X ← a.X.shed_col (a.intercept - 1).toNat
      if a.warm_start = 1 then do
        let X_sub ← a.X_sub.shed_col (a.intercept - 1).toNat
        pure (X, X_sub)
      else pure (X, a.X_sub)
    else pure (a.X, a.X_sub)
  -- lines 195-205: standardize
  let mx := col_means X
  let sx := col_stddevs lib X
  let (X, X_sub) ← standardize_loop mx sx a.warm_start X X_sub
  -- lines 207-214: centre the response
  let my := mean a.y
  let _sy := stddev lib a.y
  let y := if a.intercept > 0 then a.y.map (fun v => v - my) else a.y
  let y_sub :=
    if a.intercept > 0 ∧ a.warm_start = 1 then a.y_sub.map (fun v => v - my) else a.y_sub
  -- lines 219-224: intercept column first
  let (X, X_sub) ←
    if a.intercept > 0 then do
      let X ← join_rows (ones n) X
      if a.warm_start = 1 then do
        let X_sub ← join_rows (ones a.num_samples) X_sub
        pure (X, X_sub)
      else pure (X, X_sub)
    else pure (X, X_sub)
  -- line 226
  let X_t := trans X
  pure
    { p := p, n := n, one_over_n := one_over_n, X := X, X_sub := X_sub, y := y,
      y_sub := y_sub, mx := mx, sx := sx, my := my, X_t := X_t }

/-- Source lines 229-245, the warm start.  Returns the new `init_beta`, the value of the
local variable `maxiter` afterwards, and the `maxiter` arguments of the solver calls made.
The argument expression `maxiter = 100` of the call assigns the local variable `maxiter`
and passes its new value. -/
def fit_warm_start (a : FitArgs) (s : Prepared) : Except Fault (Vec × Int × List Int) :=
  if a.warm_start = 1 then do
    let X_t_sub := trans s.X_sub
    let one_over_num_samples : ℚ := 1 / (a.num_samples : ℚ)
    let maxiter : Int := 100
    let init_beta ← huber_grad_descent s.y_sub s.X_sub X_t_sub a.init_beta a.tau a.num_samples
      one_over_num_samples s.p maxiter a.mu a.beta_tol a.check_tol
    pure (init_beta, maxiter, [maxiter])
  else pure (a.init_beta, a.maxiter, [])

/-- Source lines 247-248: `init_beta(0)` becomes the `tau`-quantile of
`y - X.cols(1, p - 1) * init_beta.rows(1, p - 1)`. -/
def fit_init_intercept (lib : Lib) (a : FitArgs) (s : Prepared) (init_beta : Vec) :
    Except Fault Vec := do
  let Xc ← s.X.sub_cols 1 (s.p - 1)
  let b_tail ← vec_rows init_beta 1 (s.p - 1)
  let Xb ← mat_vec Xc b_tail
  let partial_resid ← vec_sub s.y Xb
  vec_set init_beta 0 (lib.quantile partial_resid a.tau)

/-- Source lines 229-254: warm start, initial intercept, and the solver on the full data
with the current value of the local variable `maxiter`.  Returns `beta` and the `maxiter`
arguments of the solver calls in call order. -/
def fit_solve (lib : Lib) (a : FitArgs) (s : Prepared) : Except Fault (Vec × List Int) := do
  let (init_beta, maxiter, calls) ← fit_warm_start a s
  let init_beta ← fit_init_intercept lib a s init_beta
  let beta ← huber_grad_descent s.y s.X s.X_t init_beta a.tau s.n s.one_over_n s.p maxiter
    a.mu a.beta_tol a.check_tol
  pure (beta, calls ++ [maxiter])

/-- Source lines 262-280: `X` and the coefficients are transformed back. -/
def fit_unstandardize (a : FitArgs) (s : Prepared) (beta : Vec) : Except Fault (Mat × Vec) :=
  if a.intercept > 0 then do
    let X ← unstandardize_loop s.mx s.sx 1 s.X.n_cols 1 s.X
    let tail ← vec_rows beta 1 (s.p - 1)
    let tail ← vec_div tail s.sx
    let beta := beta.take 1 ++ tail ++ beta.drop s.p
    let mb ← dot s.mx tail
    let b0 ← vec_at beta 0
    let beta ← vec_set beta 0 (b0 + (s.my - mb))
    pure (X, beta)
  else do
    let X ← unstandardize_loop s.mx s.sx 0 s.p 0 s.X
    let all ← vec_rows beta 0 (s.p - 1)
    let all ← vec_div all s.sx
    pure (X, all ++ beta.drop s.p)

/-- Source lines 257-289: `y += my`, the transformation back, and the move of the
intercept to the caller's position. -/
def fit_finish (a : FitArgs) (s : Prepared) (beta : Vec) (calls : List Int) :
    Except Fault FitResult := do
  -- line 258
  let y := s.y.map (fun v => v + s.my)
  let (X, beta) ← fit_unstandardize a s beta
  -- lines 283-287
  let (X, beta) ←
    if a.intercept > 1 then do
      let X ← reorder_columns X a.intercept
      let beta ← reorder_coefficients beta a.intercept
      pure (X, beta)
    else pure (X, beta)
  pure
    { beta := beta, X := X, y := y, X_sub := s.X_sub, y_sub := s.y_sub,
      solver_maxiter := calls }

/-- The function `fit_approx_quantile_model`: the three parts of its body in sequence. -/
def fit_approx_quantile_model (lib : Lib) (a : FitArgs) : Except Fault FitResult := do
  let s ← fit_prepare lib a
  let (beta, calls) ← fit_solve lib a s
  fit_finish a s beta calls

/-! ## Devices for reasoning about the solver

These definitions are not in the source: they name the sizes the source assumes and the
values its statements compute when no size check fails. -/

/-- The run did not stop for want of fuel: it returned or a size check failed. -/
def NoFuel {α : Type} (x : Except Fault α) : Prop := x ≠ .error .fuel

/-- The run did not divide a column by zero. -/
def StaysFinite {α : Type} (x : Except Fault α) : Prop := x ≠ .error .nonfinite

/-- The arguments of `huber_grad_descent` have consistent sizes: `y` has `n` entries, `X` is
`n` by `p` and `X_t` is `p` by `n`. -/
def SolverShape (y : Vec) (X X_t : Mat) (n p : Nat) : Prop :=
  y.length = n ∧ X.n_rows = n ∧ X.n_cols = p ∧ X_t.n_rows = p ∧ X_t.n_cols = n

/-- The vectors of the solver state have the sizes the source gives them. -/
def HgdShape (n p : Nat) (s : HgdState) : Prop :=
  s.beta.length = p ∧ s.last_beta.length = p ∧ s.grad.length = p ∧ s.derivs.length = n
    ∧ s.resid.length = n ∧ s.beta_diff.length = p ∧ s.grad_diff.length = p

/-- The value of `X * v` when the sizes agree. -/
def mat_vec_val (X : Mat) (v : Vec) : Vec :=
  (List.range X.n_rows).map fun r =>
    ((List.range X.n_cols).map fun c => X.entry r c * v.getD c 0).sum

/-- The value of `checkfun` when `res` has at least `n` entries. -/
def checkfun_val (res : Vec) (tau : ℚ) (n : Nat) : ℚ :=
  ((List.range n).map fun i => checkfun1 (res.getD i 0) tau).sum

/-- The step size chosen at source lines 102-109. -/
def hgd_delta (s : HgdState) : ℚ :=
  if s.cross > 0 then
    min (min (s.cross / (List.zipWith (fun x y => x * y) s.grad_diff s.grad_diff).sum)
      ((List.zipWith (fun x y => x * y) s.beta_diff s.beta_diff).sum / s.cross)) 2
  else 1

/-- The state after one execution of the loop body (source lines 101-136) when no size
check fails; `derivs` and `grad` are the buffers as `update_huber_grad` leaves them. -/
def hgd_next (X : Mat) (tau : ℚ) (n : Nat) (s : HgdState) (derivs grad : Vec) : HgdState :=
  let delta := hgd_delta s
  let beta_diff := List.zipWith (fun x y => x - y) s.beta s.last_beta
  let grad_diff := List.zipWith (fun x y => x - y) grad s.grad
  let beta := List.zipWith (fun x y => x + y) s.beta
    (vec_scale (((s.i : ℚ) - 1) / ((s.i : ℚ) + 2)) beta_diff)
  let beta := List.zipWith (fun x y => x + y) beta (vec_scale delta grad)
  let beta_diff := List.zipWith (fun x y => x + y) beta_diff (vec_scale delta grad)
  let resid := List.zipWith (fun x y => x - y) s.resid (mat_vec_val X beta_diff)
  let this_checkfun := checkfun_val resid tau n
  { beta := beta, last_beta := beta, grad := grad, last_grad := s.grad,
    derivs := derivs, resid := resid, beta_diff := beta_diff, grad_diff := grad_diff,
    checkfun_diff := |s.last_checkfun - this_checkfun|, last_checkfun := this_checkfun,
    i := s.i + 1,
    cross := (List.zipWith (fun x y => x * y) beta_diff grad_diff).sum, delta := delta }

/-- The state on loop entry when no size check fails. -/
def hgd_init_val (y : Vec) (X : Mat) (beta : Vec) (tau : ℚ) (n p : Nat) : HgdState :=
  let resid := List.zipWith (fun x y => x - y) y (mat_vec_val X beta)
  { beta := beta, last_beta := beta, grad := zeros p, last_grad := zeros p,
    derivs := zeros n, resid := resid, beta_diff := zeros p, grad_diff := zeros p,
    checkfun_diff := checkfun_val resid tau n, last_checkfun := checkfun_val resid tau n,
    i := 1, cross := 0, delta := min (1 / tau) (1 / (1 - tau)) }

/-- The state after `k` executions of the loop body, whatever the loop condition says. -/
def hgd_steps (X X_t : Mat) (tau mu : ℚ) (n : Nat) (one_over_n : ℚ) :
    Nat → HgdState → Except Fault HgdState
  | 0, s => .ok s
  | k + 1, s => do
    let s ← hgd_step X X_t tau mu n one_over_n s
    hgd_steps X X_t tau mu n one_over_n k s

/-- What holds of the solver state at the head of the loop: the sizes are right, `last_beta`
is `beta`, the residual is `y - X * beta`, `cross` is the inner product of the stored
differences, and the counter is at least 1. -/
def HgdInv (y : Vec) (X : Mat) (n p : Nat) (s : HgdState) : Prop :=
  HgdShape n p s ∧ s.last_beta = s.beta
    ∧ s.resid = List.zipWith (fun x y => x - y) y (mat_vec_val X s.beta)
    ∧ s.cross = (List.zipWith (fun x y => x * y) s.beta_diff s.grad_diff).sum
    ∧ 1 ≤ s.i

/-! ## Instances of the library parameters used in the concrete runs -/

/-- The natural number whose square is `n`, found by search; zero when there is none. -/
def nat_sqrt_exact (n : Nat) : Nat := ((List.range (n + 1)).find? fun k => k * k == n).getD 0

/-- A square root that is exact on squares of rationals (and zero elsewhere). -/
def sqrt_exact (q : ℚ) : ℚ := (nat_sqrt_exact q.num.toNat : ℚ) / (nat_sqrt_exact q.den : ℚ)

/-- The sample quantile that Armadillo documents for `arma::quantile` (Hyndman and Fan,
definition 5): linear interpolation between the order statistics at the plotting
positions `(k - 1/2) / n`. -/
def quantile5 (v : Vec) (P : ℚ) : ℚ :=
  let s := v.mergeSort (fun a b => decide (a ≤ b))
  let n : ℚ := (v.length : ℚ)
  if P < (1 / 2) / n then s.headD 0
  else if P > (n - 1 / 2) / n then s.getLastD 0
  else
    let k := (Int.toNat ⌊n * P + 1 / 2⌋)
    let w := (P - ((k : ℚ) - 1 / 2) / n) * n
    (1 - w) * s.getD (k - 1) 0 + w * s.getD k 0

/-- The library instance of the concrete runs. -/
def lib0 : Lib := { sqrt := sqrt_exact, quantile := quantile5 }

/-! ## Concrete inputs -/

/-- Three observations of one predictor `x = 1, 3, 5` (mean 3, standard deviation 2) with the
intercept column first. -/
def X_first : Mat := { n_rows := 3, cols := [[1, 1, 1], [1, 3, 5]] }

/-- The same data with the intercept column second. -/
def X_second : Mat := { n_rows := 3, cols := [[1, 3, 5], [1, 1, 1]] }

/-- Two predictors and no intercept column; both columns have mean 3 and standard
deviation 2. -/
def X_plain : Mat := { n_rows := 3, cols := [[1, 3, 5], [1, 5, 3]] }

/-- A call with the default `mu`, `maxiter`, `beta_tol`, `check_tol`, `intercept` and
`warm_start`, warm start on the full sample, response `y = 5/2 + x/2`, and the initial
guess `[0, 1]` (the exact fit on the standardized data). -/
def args_warm : FitArgs :=
  { X := X_first, y := [3, 4, 5], X_sub := X_first, y_sub := [3, 4, 5], tau := 1 / 2,
    init_beta := [0, 1], mu := 1 / 1000000000000000, maxiter := 10000, beta_tol := 1 / 10000,
    check_tol := 1 / 1000000, intercept := 1, num_samples := 3, warm_start := 1 }

/-- The call `args_warm` with the intercept in column 2 of the design matrix. -/
def args_second : FitArgs := { args_warm with X := X_second, X_sub := X_second, intercept := 2 }

/-- A call without intercept and without warm start, iteration cap 1. -/
def args_plain : FitArgs :=
  { args_warm with
    X := X_plain, init_beta := [0, 0], maxiter := 1, intercept := 0, warm_start := 0 }

/-- A matrix with the ones column first and two data columns. -/
def X_three : Mat := { n_rows := 2, cols := [[1, 1], [2, 3], [4, 5]] }

/-- The standardized design of `X_first`: the ones column and the predictor `-1, 0, 1`. -/
def X_std : Mat := { n_rows := 3, cols := [[1, 1, 1], [-1, 0, 1]] }

/-- A design matrix whose predictor column is constant. -/
def X_const : Mat := { n_rows := 3, cols := [[1, 1, 1], [2, 2, 2]] }

/-- A call on `X_const` without warm start, iteration cap 1. -/
def args_const : FitArgs :=
  { args_warm with
    X := X_const, X_sub := X_const, init_beta := [0, 0], maxiter := 1, warm_start := 0 }

/-- The local variables of the call `args_warm` after standardization. -/
def prep_warm : Prepared :=
  ⟨2, 3, 1 / 3, X_std, X_std, [-1, 0, 1], [-1, 0, 1], [3], [2], 4, trans X_std⟩

/-! ## Auxiliary lemmas -/

theorem vec_at_ok (v : Vec) (i : Nat) (h : i < v.length) : vec_at v i = .ok (v.getD i 0) := by
  simp [vec_at, List.getElem?_eq_getElem h]

theorem sum_map_range (f : ℕ → ℚ) (n : Nat) :
    ((List.range n).map f).sum = ∑ i in Finset.range n, f i := by
  induction n with
  | zero => simp
  | succ k ih => simp [List.range_succ, Finset.sum_range_succ, ih]

theorem forall_mem_iff_getD (v : Vec) (n : Nat) (h : v.length = n) (P : ℚ → Prop) :
    (∀ x ∈ v, P x) ↔ ∀ i < n, P (v.getD i 0) := by
  subst h
  constructor
  · intro hx i hi
    rw [List.getD_eq_getElem _ _ hi]
    exact hx _ (List.getElem_mem hi)
  · intro hi x hx
    obtain ⟨i, hlt, rfl⟩ := List.getElem_of_mem hx
    have := hi i hlt
    rwa [List.getD_eq_getElem _ _ hlt] at this

theorem trans_entry (X : Mat) (i j : Nat) (hi : i < X.n_rows) (hj : j < X.n_cols) :
    (trans X).entry j i = X.entry i j := by
  simp [trans, Mat.entry, List.getD_eq_getElem?_getD, List.getElem?_map, hi, hj,
    List.getElem?_range]

/-! ### The loss -/

/-- The loop of `checkfun` adds up the scalar losses of the first `n` entries. -/
theorem checkfun_eq_sum (res : Vec) (tau : ℚ) (n : Nat) (h : n ≤ res.length) :
    checkfun res tau n = .ok (∑ i in Finset.range n, checkfun1 (res.getD i 0) tau) := by
  induction n with
  | zero => simp [checkfun, pure, Except.pure]
  | succ k ih =>
    have hk : k < res.length := h
    have h1 := ih (Nat.le_of_succ_le h)
    unfold checkfun at h1 ⊢
    rw [List.range_succ, List.foldlM_append, h1]
    simp [vec_at_ok _ _ hk, Finset.sum_range_succ, bind, Except.bind, pure, Except.pure]

theorem checkfun1_eq_max (x tau : ℚ) :
    checkfun1 x tau = max (tau * x) ((tau - 1) * x) := by
  unfold checkfun1
  split_ifs with hx
  · rw [max_eq_right (by nlinarith)]; ring
  · push_neg at hx
    rw [max_eq_left (by nlinarith)]; ring

theorem checkfun1_nonneg (x tau : ℚ) (h0 : 0 < tau) (h1 : tau < 1) : 0 ≤ checkfun1 x tau := by
  unfold checkfun1
  split_ifs with hx
  · nlinarith
  · push_neg at hx
    simpa using mul_nonneg hx h0.le

theorem checkfun1_eq_zero_iff (x tau : ℚ) (h0 : 0 < tau) (h1 : tau < 1) :
    checkfun1 x tau = 0 ↔ x = 0 := by
  unfold checkfun1
  split_ifs with hx
  · constructor
    · intro h
      rcases mul_eq_zero.mp h with h | h
      · exact h
      · linarith
    · intro h; simp [h]
  · constructor
    · intro h
      rcases mul_eq_zero.mp h with h | h
      · exact h
      · simp at h; linarith
    · intro h; simp [h]

theorem checkfun1_convex (x y lam tau : ℚ) (hl0 : 0 ≤ lam) (hl1 : lam ≤ 1) :
    checkfun1 (lam * x + (1 - lam) * y) tau
      ≤ lam * checkfun1 x tau + (1 - lam) * checkfun1 y tau := by
  rw [checkfun1_eq_max, checkfun1_eq_max x, checkfun1_eq_max y]
  have hl : 0 ≤ 1 - lam := by linarith
  apply max_le
  · have a := mul_le_mul_of_nonneg_left (le_max_left (tau * x) ((tau - 1) * x)) hl0
    have b := mul_le_mul_of_nonneg_left (le_max_left (tau * y) ((tau - 1) * y)) hl
    nlinarith
  · have a := mul_le_mul_of_nonneg_left (le_max_right (tau * x) ((tau - 1) * x)) hl0
    have b := mul_le_mul_of_nonneg_left (le_max_right (tau * y) ((tau - 1) * y)) hl
    nlinarith

theorem getD_zipWith_add_scale (a b : Vec) (lam : ℚ) (i : Nat) (h : a.length = b.length) :
    (List.zipWith (fun x y => x + y) (vec_scale lam a) (vec_scale (1 - lam) b)).getD i 0
      = lam * a.getD i 0 + (1 - lam) * b.getD i 0 := by
  simp only [vec_scale, List.getD_eq_getElem?_getD, List.getElem?_zipWith, List.getElem?_map]
  by_cases hi : i < a.length
  · have hb : i < b.length := h ▸ hi
    simp [List.getElem?_eq_getElem hi, List.getElem?_eq_getElem hb]
  · push_neg at hi
    have hb : b.length ≤ i := h ▸ hi
    simp [List.getElem?_eq_none hi, List.getElem?_eq_none hb]

/-! ### The smoothed gradient -/

/-- The four branches of the loop body of `update_huber_grad`, for a positive `mu`. -/
theorem huber_deriv_cases (x tau mu : ℚ) (hmu : 0 < mu) :
    (x > mu → huber_deriv x tau mu = tau)
    ∧ (x < -mu → huber_deriv x tau mu = tau - 1)
    ∧ (0 ≤ x → x ≤ mu → huber_deriv x tau mu = x * tau / mu)
    ∧ (-mu ≤ x → x < 0 → huber_deriv x tau mu = x * (tau - 1) / mu) := by
  unfold huber_deriv
  refine ⟨?_, ?_, ?_, ?_⟩
  · intro h; rw [if_pos h]
  · intro h
    rw [if_neg (by intro h3; linarith), if_pos h]
  · intro h h3
    rw [if_neg (not_lt.mpr h3), if_neg (by intro h5; linarith), if_pos h]
  · intro h h3
    rw [if_neg (by intro h5; linarith), if_neg (not_lt.mpr h), if_neg (not_le.mpr h3)]

/-- The loop of `update_huber_grad` after `k` rounds: the first `k` entries of the buffer
hold the new values, the others are untouched. -/
theorem derivs_loop (res derivs : Vec) (tau mu : ℚ) (k : Nat) (hr : k ≤ res.length)
    (hd : k ≤ derivs.length) :
    ∃ d, (List.range k).foldlM (fun d i => do
          let r ← vec_at res i
          vec_set d i (huber_deriv r tau mu)) derivs = .ok d
      ∧ d.length = derivs.length
      ∧ (∀ i, i < k → d.getD i 0 = huber_deriv (res.getD i 0) tau mu)
      ∧ (∀ i, k ≤ i → d.getD i 0 = derivs.getD i 0) := by
  induction k with
  | zero => exact ⟨derivs, by simp [pure, Except.pure], rfl, by simp, by simp⟩
  | succ k ih =>
    obtain ⟨d, hfold, hlen, hlt, hge⟩ := ih (Nat.le_of_succ_le hr) (Nat.le_of_succ_le hd)
    have hkr : k < res.length := hr
    have hkd : k < d.length := by rw [hlen]; exact hd
    refine ⟨d.set k (huber_deriv (res.getD k 0) tau mu), ?_, by simp [hlen], ?_, ?_⟩
    · rw [List.range_succ, List.foldlM_append, hfold]
      simp [vec_at_ok _ _ hkr, vec_set, hkd, bind, Except.bind, pure, Except.pure]
    · intro i hi
      rcases Nat.lt_succ_iff_lt_or_eq.mp hi with h | h
      · have hne : k ≠ i := by omega
        rw [← hlt i h]
        simp [List.getD_eq_getElem?_getD, List.getElem?_set, hne]
      · subst h
        simp [List.getD_eq_getElem?_getD, List.getElem?_set, hkd]
    · intro i hi
      have hne : k ≠ i := by omega
      rw [← hge i (by omega)]
      simp [List.getD_eq_getElem?_getD, List.getElem?_set, hne]

/-- In the negative half of the band the stored value is `r * (tau - 1) / mu`, which has
the sign opposite to the outer value `tau - 1`: at the edge `r = -mu` it is `1 - tau`. -/
theorem huber_deriv_lower_edge (tau mu : ℚ) (hmu : 0 < mu) :
    huber_deriv (-mu) tau mu = 1 - tau := by
  rw [(huber_deriv_cases (-mu) tau mu hmu).2.2.2 le_rfl (by linarith)]
  field_simp
  ring

/-! ### Standardization -/

/-- What the backward transformation of the source makes of a standardized column. -/
theorem unstandardize_standardize_col (c : Vec) (m s : ℚ) (hs : s ≠ 0) :
    (standardize_col c m s).map (fun z => unstandardize_col z m s)
      = .ok (c.map fun x => x - m + m * s) := by
  simp only [unstandardize_col, standardize_col, hs, if_false, Except.map, List.map_map,
    Except.ok.injEq]
  apply List.map_congr_left
  intro x _
  simp only [Function.comp]
  field_simp

/-! ### Runs that return -/

/-- A sequence of two steps returns exactly when both steps return. -/
theorem bind_eq_ok {α β : Type} (x : Except Fault α) (f : α → Except Fault β) (b : β) :
    x >>= f = .ok b ↔ ∃ a, x = .ok a ∧ f a = .ok b := by
  cases x with
  | error e => simp [bind, Except.bind]
  | ok a => simp [bind, Except.bind]

/-! ### The iteration cap passed to the solver -/

/-- After the warm-start block the local variable `maxiter` is 100 if the block ran and
the caller's value otherwise. -/
theorem fit_warm_start_maxiter (a : FitArgs) (s : Prepared) (b : Vec) (m : Int)
    (calls : List Int) (h : fit_warm_start a s = .ok (b, m, calls)) :
    (a.warm_start = 1 → m = 100 ∧ calls = [100])
      ∧ (a.warm_start ≠ 1 → m = a.maxiter ∧ calls = [] ∧ b = a.init_beta) := by
  unfold fit_warm_start at h
  split_ifs at h with hw
  · rw [bind_eq_ok] at h
    obtain ⟨b2, -, h2⟩ := h
    simp only [pure, Except.pure, Except.ok.injEq, Prod.mk.injEq] at h2
    exact ⟨fun _ => ⟨h2.2.1.symm, h2.2.2.symm⟩, fun hne => absurd hw hne⟩
  · simp only [pure, Except.pure, Except.ok.injEq, Prod.mk.injEq] at h
    exact ⟨fun h1 => absurd h1 hw, fun _ => ⟨h.2.1.symm, h.2.2.symm, h.1.symm⟩⟩

theorem fit_solve_maxiter (lib : Lib) (a : FitArgs) (s : Prepared) (b : Vec)
    (calls : List Int) (h : fit_solve lib a s = .ok (b, calls)) :
    calls = if a.warm_start = 1 then [100, 100] else [a.maxiter] := by
  unfold fit_solve at h
  rw [bind_eq_ok] at h
  obtain ⟨⟨b1, m, c1⟩, hw, h⟩ := h
  rw [bind_eq_ok] at h
  obtain ⟨b2, -, h⟩ := h
  rw [bind_eq_ok] at h
  obtain ⟨b3, -, h⟩ := h
  simp only [pure, Except.pure, Except.ok.injEq, Prod.mk.injEq] at h
  have hm := fit_warm_start_maxiter a s b1 m c1 hw
  by_cases hws : a.warm_start = 1
  · obtain ⟨h1, h2⟩ := hm.1 hws
    rw [if_pos hws, ← h.2, h1, h2]; rfl
  · obtain ⟨h1, h2, -⟩ := hm.2 hws
    rw [if_neg hws, ← h.2, h1, h2]; rfl

theorem fit_finish_fields (a : FitArgs) (s : Prepared) (beta : Vec) (calls : List Int)
    (r : FitResult) (h : fit_finish a s beta calls = .ok r) :
    r.solver_maxiter = calls ∧ r.y = s.y.map (fun v => v + s.my) := by
  unfold fit_finish at h
  rw [bind_eq_ok] at h
  obtain ⟨⟨X, b⟩, -, h⟩ := h
  dsimp only at h
  split_ifs at h
  all_goals
    simp only [bind_eq_ok, pure, Except.pure, Except.ok.injEq] at h
    repeat' obtain ⟨_, h⟩ := h
    exact ⟨rfl, rfl⟩

theorem fit_prepare_y (lib : Lib) (a : FitArgs) (s : Prepared)
    (h : fit_prepare lib a = .ok s) :
    s.my = mean a.y
      ∧ s.y = if a.intercept > 0 then a.y.map (fun v => v - mean a.y) else a.y := by
  unfold fit_prepare at h
  dsimp only at h
  split_ifs at h
  all_goals
    simp only [bind_eq_ok, pure, Except.pure, Except.ok.injEq] at h
    repeat' obtain ⟨_, h⟩ := h
    simp [*]

/-- Every returning call of `fit_approx_quantile_model` passes `maxiter = 100` to both
solver calls when `warm_start = 1`, and the caller's `maxiter` to its one solver call
otherwise. -/
theorem fit_solver_maxiter (lib : Lib) (a : FitArgs) (r : FitResult)
    (h : fit_approx_quantile_model lib a = .ok r) :
    r.solver_maxiter = if a.warm_start = 1 then [100, 100] else [a.maxiter] := by
  unfold fit_approx_quantile_model at h
  rw [bind_eq_ok] at h
  obtain ⟨s, -, h⟩ := h
  rw [bind_eq_ok] at h
  obtain ⟨⟨b, calls⟩, hs, h⟩ := h
  rw [(fit_finish_fields a s b calls r h).1]
  exact fit_solve_maxiter lib a s b calls hs

/-- On return from `fit_approx_quantile_model` the response `y` is the caller's when
`intercept > 0`, and the caller's shifted by its mean otherwise. -/
theorem fit_y_on_return (lib : Lib) (a : FitArgs) (r : FitResult)
    (h : fit_approx_quantile_model lib a = .ok r) :
    r.y = if a.intercept > 0 then a.y else a.y.map (fun v => v + mean a.y) := by
  unfold fit_approx_quantile_model at h
  rw [bind_eq_ok] at h
  obtain ⟨s, hp, h⟩ := h
  rw [bind_eq_ok] at h
  obtain ⟨⟨b, calls⟩, -, h⟩ := h
  obtain ⟨hmy, hy⟩ := fit_prepare_y lib a s hp
  rw [(fit_finish_fields a s b calls r h).2, hy, hmy]
  split_ifs with hi
  · rw [List.map_map]
    conv_rhs => rw [← List.map_id a.y]
    apply List.map_congr_left
    intro x _
    simp
  · rfl

/-! ### Moving the intercept -/

/-- What `reorder_columns` does to a matrix with columns `c0, A, c, B` for the target
position `|A| + 2`: `c0` is removed, a zero column takes the place before `c`, and `c` is
overwritten with ones. -/
theorem reorder_columns_cols (n_rows : Nat) (c0 : Vec) (A : List Vec) (c : Vec) (B : List Vec) :
    reorder_columns { n_rows := n_rows, cols := c0 :: (A ++ c :: B) } ((A.length : Int) + 2)
      = .ok { n_rows := n_rows, cols := A ++ zeros n_rows :: ones n_rows :: B } := by
  have h1 : ((A.length : Int) + 2 ≠ 0) := by omega
  have h2 : ((A.length : Int) + 2 - 1 > 0) := by omega
  have h3 : ((A.length : Int) + 2 - 1).toNat = A.length + 1 := by omega
  unfold reorder_columns
  rw [if_pos h1]
  simp only [h2, if_true, h3]
  have hins : Mat.insert_cols { n_rows := n_rows, cols := c0 :: (A ++ c :: B) } (A.length + 1) 1
      = .ok { n_rows := n_rows, cols := c0 :: (A ++ zeros n_rows :: c :: B) } := by
    simp [Mat.insert_cols, Mat.n_cols]
  rw [hins]
  simp [bind, Except.bind, Mat.shed_col, Mat.set_col, Mat.n_cols, ones, List.set_append]

/-- What the two statements on `beta` do to `b0, A, B` for the target position `|A| + 2`:
`b0` is removed and `b0` truncated many zeros are put between `A` and `B`. -/
theorem reorder_coefficients_rows (b0 : ℚ) (A B : Vec) (h : -1 < b0) :
    reorder_coefficients (b0 :: (A ++ B)) ((A.length : Int) + 2)
      = .ok (A ++ zeros (Int.toNat ⌊b0⌋) ++ B) := by
  have h3 : ((A.length : Int) + 2 - 1).toNat = A.length + 1 := by omega
  unfold reorder_coefficients
  simp [bind, Except.bind, vec_at, to_uword, not_le.mpr h, h3, vec_insert_rows, vec_shed_row]

/-! ### The solver -/

theorem noFuel_pure {α : Type} (a : α) : NoFuel (pure a : Except Fault α) := by
  simp [NoFuel, pure, Except.pure]

theorem noFuel_shape {α : Type} : NoFuel (Except.error Fault.shape : Except Fault α) := by
  simp [NoFuel]

theorem noFuel_bind {α β : Type} (x : Except Fault α) (f : α → Except Fault β)
    (hx : NoFuel x) (hf : ∀ a, NoFuel (f a)) : NoFuel (x >>= f) := by
  cases x with
  | error e => simpa [NoFuel, bind, Except.bind] using hx
  | ok a => simpa [bind, Except.bind] using hf a

theorem noFuel_ite {α : Type} (c : Prop) [Decidable c] (x y : Except Fault α)
    (hx : NoFuel x) (hy : NoFuel y) : NoFuel (if c then x else y) := by
  split_ifs <;> assumption

theorem noFuel_foldlM {α β : Type} (f : β → α → Except Fault β) (l : List α)
    (hf : ∀ b a, NoFuel (f b a)) (b : β) : NoFuel (l.foldlM f b) := by
  induction l generalizing b with
  | nil => exact noFuel_pure b
  | cons a l ih =>
    rw [List.foldlM_cons]
    exact noFuel_bind _ _ (hf b a) (fun b' => ih b')

theorem vec_at_noFuel (v : Vec) (i : Nat) : NoFuel (vec_at v i) := by
  unfold vec_at; split <;> simp [NoFuel]

theorem vec_set_noFuel (v : Vec) (i : Nat) (x : ℚ) : NoFuel (vec_set v i x) := by
  unfold vec_set; split <;> simp [NoFuel]

theorem vec_sub_noFuel (a b : Vec) : NoFuel (vec_sub a b) := by
  unfold vec_sub; split <;> simp [NoFuel]

theorem vec_add_noFuel (a b : Vec) : NoFuel (vec_add a b) := by
  unfold vec_add; split <;> simp [NoFuel]

theorem dot_noFuel (a b : Vec) : NoFuel (dot a b) := by
  unfold dot; split <;> simp [NoFuel]

theorem mat_vec_noFuel (X : Mat) (v : Vec) : NoFuel (mat_vec X v) := by
  unfold mat_vec; split <;> simp [NoFuel]

theorem checkfun_noFuel (res : Vec) (tau : ℚ) (n : Nat) : NoFuel (checkfun res tau n) := by
  unfold checkfun
  exact noFuel_foldlM _ _ (fun b a => noFuel_bind _ _ (vec_at_noFuel _ _) (fun _ => noFuel_pure _)) _

theorem update_huber_grad_noFuel (X_t : Mat) (res derivs : Vec) (tau mu : ℚ) (n : Nat)
    (one_over_n : ℚ) : NoFuel (update_huber_grad X_t res derivs tau mu n one_over_n) := by
  unfold update_huber_grad
  refine noFuel_bind _ _ ?_ (fun _ => noFuel_bind _ _ (mat_vec_noFuel _ _) (fun _ => noFuel_pure _))
  exact noFuel_foldlM _ _ (fun b a => noFuel_bind _ _ (vec_at_noFuel _ _) (fun _ => vec_set_noFuel _ _ _)) _

theorem hgd_step_noFuel (X X_t : Mat) (tau mu : ℚ) (n : Nat) (one_over_n : ℚ) (s : HgdState) :
    NoFuel (hgd_step X X_t tau mu n one_over_n s) := by
  unfold hgd_step
  dsimp only
  split_ifs
  all_goals
    repeat' first
      | exact noFuel_pure _
      | exact dot_noFuel _ _
      | exact vec_sub_noFuel _ _
      | exact vec_add_noFuel _ _
      | exact mat_vec_noFuel _ _
      | exact checkfun_noFuel _ _ _
      | exact update_huber_grad_noFuel _ _ _ _ _ _ _
      | (refine noFuel_bind _ _ ?_ (fun _ => ?_))

theorem vec_sub_ok (a b : Vec) (h : a.length = b.length) :
    vec_sub a b = .ok (List.zipWith (fun x y => x - y) a b) := by simp [vec_sub, h]

theorem vec_add_ok (a b : Vec) (h : a.length = b.length) :
    vec_add a b = .ok (List.zipWith (fun x y => x + y) a b) := by simp [vec_add, h]

theorem dot_ok (a b : Vec) (h : a.length = b.length) :
    dot a b = .ok (List.zipWith (fun x y => x * y) a b).sum := by simp [dot, h]

theorem mat_vec_ok (X : Mat) (v : Vec) (h : X.n_cols = v.length) :
    mat_vec X v = .ok (mat_vec_val X v) := by
  simp [mat_vec, mat_vec_val, h]

theorem mat_vec_val_length (X : Mat) (v : Vec) : (mat_vec_val X v).length = X.n_rows := by
  simp [mat_vec_val]

theorem checkfun_ok (res : Vec) (tau : ℚ) (n : Nat) (h : n ≤ res.length) :
    checkfun res tau n = .ok (checkfun_val res tau n) := by
  rw [checkfun_eq_sum res tau n h, checkfun_val, sum_map_range]

theorem update_huber_grad_ok (X_t : Mat) (res derivs : Vec) (tau mu one_over_n : ℚ) (n : Nat)
    (hr : res.length = n) (hd : derivs.length = n) (hX : X_t.n_cols = n) :
    ∃ d g, update_huber_grad X_t res derivs tau mu n one_over_n = .ok (d, g)
      ∧ d.length = n ∧ g.length = X_t.n_rows := by
  obtain ⟨d, hfold, hlen, -, -⟩ := derivs_loop res derivs tau mu n hr.ge hd.ge
  have hdn : d.length = n := hlen.trans hd
  have hmv := mat_vec_ok X_t d (hX.trans hdn.symm)
  refine ⟨d, (mat_vec_val X_t d).map (fun x => x * one_over_n), ?_, hdn, ?_⟩
  · unfold update_huber_grad
    rw [hfold]
    simp only [bind, Except.bind, hmv, pure, Except.pure]
  · simp [mat_vec_val]

theorem hgd_step_spec (y : Vec) (X X_t : Mat) (tau mu : ℚ) (n p : Nat) (one_over_n : ℚ)
    (s : HgdState) (hS : SolverShape y X X_t n p) (hs : HgdShape n p s) :
    ∃ d g, update_huber_grad X_t s.resid s.derivs tau mu n one_over_n = .ok (d, g)
      ∧ d.length = n ∧ g.length = p
      ∧ hgd_step X X_t tau mu n one_over_n s = .ok (hgd_next X tau n s d g) := by
  obtain ⟨hy, hXr, hXc, hTr, hTc⟩ := hS
  obtain ⟨h1, h2, h3, h4, h5, h6, h7⟩ := hs
  obtain ⟨d, g, hug, hd, hg⟩ :=
    update_huber_grad_ok X_t s.resid s.derivs tau mu one_over_n n h5 h4 hTc
  have hgp : g.length = p := hg.trans hTr
  refine ⟨d, g, hug, hd, hgp, ?_⟩
  have e0a := dot_ok s.grad_diff s.grad_diff rfl
  have e0b := dot_ok s.beta_diff s.beta_diff rfl
  have e1 := vec_sub_ok s.beta s.last_beta (h1.trans h2.symm)
  have e2 := vec_sub_ok g s.grad (hgp.trans h3.symm)
  have e3 := vec_add_ok s.beta (vec_scale (((s.i : ℚ) - 1) / ((s.i : ℚ) + 2))
    (List.zipWith (fun x y => x - y) s.beta s.last_beta)) (by simp [vec_scale, h1, h2])
  have e4 := vec_add_ok (List.zipWith (fun x y => x + y) s.beta
    (vec_scale (((s.i : ℚ) - 1) / ((s.i : ℚ) + 2))
      (List.zipWith (fun x y => x - y) s.beta s.last_beta)))
    (vec_scale (hgd_delta s) g) (by simp [vec_scale, h1, h2, hgp])
  have e5 := vec_add_ok (List.zipWith (fun x y => x - y) s.beta s.last_beta)
    (vec_scale (hgd_delta s) g) (by simp [vec_scale, h1, h2, hgp])
  have e6 := mat_vec_ok X (List.zipWith (fun x y => x + y)
    (List.zipWith (fun x y => x - y) s.beta s.last_beta) (vec_scale (hgd_delta s) g))
    (by simp [vec_scale, h1, h2, hgp, hXc])
  have e7 := vec_sub_ok s.resid (mat_vec_val X (List.zipWith (fun x y => x + y)
    (List.zipWith (fun x y => x - y) s.beta s.last_beta) (vec_scale (hgd_delta s) g)))
    (by rw [mat_vec_val_length, h5, hXr])
  have e8 := checkfun_ok (List.zipWith (fun x y => x - y) s.resid
    (mat_vec_val X (List.zipWith (fun x y => x + y)
      (List.zipWith (fun x y => x - y) s.beta s.last_beta) (vec_scale (hgd_delta s) g))))
    tau n (by simp [mat_vec_val_length, h5, hXr])
  have e9 := dot_ok (List.zipWith (fun x y => x + y)
    (List.zipWith (fun x y => x - y) s.beta s.last_beta) (vec_scale (hgd_delta s) g))
    (List.zipWith (fun x y => x - y) g s.grad) (by simp [vec_scale, h1, h2, hgp, h3])
  unfold hgd_step
  by_cases hc : s.cross > 0
  · have hdel : hgd_delta s = min (min (s.cross / (List.zipWith (fun x y => x * y) s.grad_diff s.grad_diff).sum)
      ((List.zipWith (fun x y => x * y) s.beta_diff s.beta_diff).sum / s.cross)) 2 := by
      simp [hgd_delta, hc]
    rw [hdel] at e4 e5 e6 e7 e8 e9
    simp only [hc, if_true, hug, e0a, e0b, e1, e2, e3, e4, e5, e6, e7, e8, e9, bind, Except.bind, pure, Except.pure]
    simp only [hgd_next, hdel]
  · have hdel : hgd_delta s = 1 := by simp [hgd_delta, hc]
    rw [hdel] at e4 e5 e6 e7 e8 e9
    simp only [hc, if_false, hug, e1, e2, e3, e4, e5, e6, e7, e8, e9, bind, Except.bind, pure, Except.pure]
    simp only [hgd_next, hdel]

theorem hgd_init_spec (y : Vec) (X X_t : Mat) (beta : Vec) (tau : ℚ) (n p : Nat)
    (hS : SolverShape y X X_t n p) (hb : beta.length = p) :
    hgd_init y X beta tau n p = .ok (hgd_init_val y X beta tau n p) := by
  obtain ⟨hy, hXr, hXc, -, -⟩ := hS
  have e1 := mat_vec_ok X beta (hXc.trans hb.symm)
  have e2 := vec_sub_ok y (mat_vec_val X beta) (by rw [mat_vec_val_length, hy, hXr])
  have e3 := checkfun_ok (List.zipWith (fun x y => x - y) y (mat_vec_val X beta)) tau n
    (by simp [mat_vec_val_length, hy, hXr])
  unfold hgd_init
  simp only [e1, e2, e3, bind, Except.bind, pure, Except.pure]
  rfl

theorem zipWith_sub_self (v : Vec) : List.zipWith (fun x y => x - y) v v = zeros v.length := by
  induction v with
  | nil => rfl
  | cons a v ih => simp [zeros, List.replicate_succ]

theorem vec_scale_zeros (c : ℚ) (k : Nat) : vec_scale c (zeros k) = zeros k := by
  simp [vec_scale, zeros]

theorem zipWith_add_zeros (v : Vec) : List.zipWith (fun x y => x + y) v (zeros v.length) = v := by
  induction v with
  | nil => rfl
  | cons a v ih => simpa [zeros, List.replicate_succ] using ih

theorem zipWith_zeros_add (v : Vec) : List.zipWith (fun x y => x + y) (zeros v.length) v = v := by
  induction v with
  | nil => rfl
  | cons a v ih => simpa [zeros, List.replicate_succ] using ih

/-- With `last_beta = beta` at the head of the loop, the momentum difference is zero and
the body adds `delta * grad` to `beta`. -/
theorem hgd_next_beta (X : Mat) (tau : ℚ) (n : Nat) (s : HgdState) (d g : Vec)
    (h : s.last_beta = s.beta) (hg : g.length = s.beta.length) :
    List.zipWith (fun x y => x - y) s.beta s.last_beta = zeros s.beta.length
      ∧ (hgd_next X tau n s d g).beta
          = List.zipWith (fun x y => x + y) s.beta (vec_scale (hgd_next X tau n s d g).delta g)
      ∧ (hgd_next X tau n s d g).beta_diff = vec_scale (hgd_next X tau n s d g).delta g
      ∧ (hgd_next X tau n s d g).last_beta = (hgd_next X tau n s d g).beta := by
  have h0 : List.zipWith (fun x y => x - y) s.beta s.last_beta = zeros s.beta.length := by
    rw [h, zipWith_sub_self]
  refine ⟨h0, ?_, ?_, rfl⟩
  · simp only [hgd_next, h0, vec_scale_zeros, zipWith_add_zeros]
  · simp only [hgd_next, h0]
    have : (vec_scale (hgd_delta s) g).length = s.beta.length := by simp [vec_scale, hg]
    rw [← this, zipWith_zeros_add]

theorem hgd_next_shape (X : Mat) (tau : ℚ) (n p : Nat) (s : HgdState) (d g : Vec)
    (hs : HgdShape n p s) (hd : d.length = n) (hg : g.length = p) (hX : X.n_rows = n) :
    HgdShape n p (hgd_next X tau n s d g) := by
  obtain ⟨h1, h2, h3, h4, h5, h6, h7⟩ := hs
  refine ⟨?_, ?_, hg, hd, ?_, ?_, ?_⟩ <;>
    simp [hgd_next, vec_scale, mat_vec_val_length, h1, h2, h3, h5, hg, hX]

theorem getD_zipWith_add (a b : Vec) (i : Nat) (h : a.length = b.length) :
    (List.zipWith (fun x y => x + y) a b).getD i 0 = a.getD i 0 + b.getD i 0 := by
  simp only [List.getD_eq_getElem?_getD, List.getElem?_zipWith]
  by_cases hi : i < a.length
  · have hb : i < b.length := h ▸ hi
    simp [List.getElem?_eq_getElem hi, List.getElem?_eq_getElem hb]
  · push_neg at hi
    have hb : b.length ≤ i := h ▸ hi
    simp [List.getElem?_eq_none hi, List.getElem?_eq_none hb]

theorem mat_vec_val_add (X : Mat) (a b : Vec) (h : a.length = b.length) :
    mat_vec_val X (List.zipWith (fun x y => x + y) a b)
      = List.zipWith (fun x y => x + y) (mat_vec_val X a) (mat_vec_val X b) := by
  apply List.ext_getElem
  · simp [mat_vec_val]
  · intro r h1 h2
    simp only [mat_vec_val, List.getElem_map, List.getElem_zipWith, List.getElem_range,
      sum_map_range, getD_zipWith_add a b _ h, ← Finset.sum_add_distrib]
    apply Finset.sum_congr rfl
    intro c _
    ring

theorem zipWith_sub_add (y a b : Vec) (h1 : y.length = a.length) (h2 : a.length = b.length) :
    List.zipWith (fun x y => x - y) y (List.zipWith (fun x y => x + y) a b)
      = List.zipWith (fun x y => x - y) (List.zipWith (fun x y => x - y) y a) b := by
  apply List.ext_getElem
  · simp [h1, h2]
  · intro i _ _
    simp only [List.getElem_zipWith]
    ring

/-- One execution of the loop body keeps `resid = y - X * beta`. -/
theorem hgd_next_resid (y : Vec) (X : Mat) (tau : ℚ) (n p : Nat) (s : HgdState) (d g : Vec)
    (hy : y.length = n) (hX : X.n_rows = n) (hb : s.beta.length = p) (hg : g.length = p)
    (hl : s.last_beta = s.beta)
    (hr : s.resid = List.zipWith (fun x y => x - y) y (mat_vec_val X s.beta)) :
    (hgd_next X tau n s d g).resid
      = List.zipWith (fun x y => x - y) y (mat_vec_val X (hgd_next X tau n s d g).beta) := by
  obtain ⟨-, hbeta, hbd, -⟩ := hgd_next_beta X tau n s d g hl (hg.trans hb.symm)
  rw [hbeta]
  have hres : (hgd_next X tau n s d g).resid
      = List.zipWith (fun x y => x - y) s.resid
          (mat_vec_val X (hgd_next X tau n s d g).beta_diff) := rfl
  rw [hres, hbd, hr, mat_vec_val_add X _ _ (by simp [vec_scale, hb, hg]),
    zipWith_sub_add _ _ _ (by simp [mat_vec_val_length, hy, hX]) (by simp [mat_vec_val_length])]

theorem sum_sq_nonneg (v : Vec) : 0 ≤ (List.zipWith (fun x y => x * y) v v).sum := by
  induction v with
  | nil => simp
  | cons a v ih =>
    simp only [List.zipWith_cons_cons, List.sum_cons]
    nlinarith [mul_self_nonneg a]

theorem dot_eq_zero_of_sum_sq_eq_zero (a b : Vec)
    (h : (List.zipWith (fun x y => x * y) b b).sum = 0) :
    (List.zipWith (fun x y => x * y) a b).sum = 0 := by
  induction b generalizing a with
  | nil => simp
  | cons x b ih =>
    simp only [List.zipWith_cons_cons, List.sum_cons] at h
    have h1 := sum_sq_nonneg b
    have h2 := mul_self_nonneg x
    have hx : x * x = 0 := by linarith
    have hb : (List.zipWith (fun x y => x * y) b b).sum = 0 := by linarith
    have hx0 : x = 0 := mul_self_eq_zero.mp hx
    cases a with
    | nil => simp
    | cons y a =>
      simp only [List.zipWith_cons_cons, List.sum_cons, hx0, mul_zero, zero_add]
      exact ih a hb

theorem dot_eq_zero_of_sum_sq_eq_zero_left (a b : Vec)
    (h : (List.zipWith (fun x y => x * y) a a).sum = 0) :
    (List.zipWith (fun x y => x * y) a b).sum = 0 := by
  have := dot_eq_zero_of_sum_sq_eq_zero b a h
  rw [← this]
  congr 1
  rw [List.zipWith_comm]
  congr 1
  funext x y
  ring

/-- The step size when `cross` is the inner product of the stored differences. -/
theorem hgd_delta_bounds (s : HgdState)
    (hc : s.cross = (List.zipWith (fun x y => x * y) s.beta_diff s.grad_diff).sum) :
    (s.cross > 0 →
        (List.zipWith (fun x y => x * y) s.grad_diff s.grad_diff).sum ≠ 0 ∧ s.cross ≠ 0
        ∧ hgd_delta s
          = min (min (s.cross / (List.zipWith (fun x y => x * y) s.grad_diff s.grad_diff).sum)
              ((List.zipWith (fun x y => x * y) s.beta_diff s.beta_diff).sum / s.cross)) 2)
      ∧ (¬ s.cross > 0 → hgd_delta s = 1)
      ∧ 0 < hgd_delta s ∧ hgd_delta s ≤ 2 := by
  by_cases hpos : s.cross > 0
  · have hgg : (List.zipWith (fun x y => x * y) s.grad_diff s.grad_diff).sum ≠ 0 := by
      intro h0
      have := dot_eq_zero_of_sum_sq_eq_zero s.beta_diff s.grad_diff h0
      rw [← hc] at this
      linarith
    have hbb : (List.zipWith (fun x y => x * y) s.beta_diff s.beta_diff).sum ≠ 0 := by
      intro h0
      have := dot_eq_zero_of_sum_sq_eq_zero_left s.beta_diff s.grad_diff h0
      rw [← hc] at this
      linarith
    have hgg' := lt_of_le_of_ne (sum_sq_nonneg s.grad_diff) (Ne.symm hgg)
    have hbb' := lt_of_le_of_ne (sum_sq_nonneg s.beta_diff) (Ne.symm hbb)
    have hdel : hgd_delta s
        = min (min (s.cross / (List.zipWith (fun x y => x * y) s.grad_diff s.grad_diff).sum)
            ((List.zipWith (fun x y => x * y) s.beta_diff s.beta_diff).sum / s.cross)) 2 := by
      simp [hgd_delta, hpos]
    refine ⟨fun _ => ⟨hgg, ne_of_gt hpos, hdel⟩, fun h => absurd hpos h, ?_, ?_⟩
    · rw [hdel]
      exact lt_min (lt_min (div_pos hpos hgg') (div_pos hbb' hpos)) (by norm_num)
    · rw [hdel]
      exact min_le_right _ _
  · have hdel : hgd_delta s = 1 := by simp [hgd_delta, hpos]
    refine ⟨fun h => absurd h hpos, fun _ => hdel, ?_, ?_⟩ <;> rw [hdel] <;> norm_num

theorem dot_zeros (k : Nat) : (List.zipWith (fun x y => x * y) (zeros k) (zeros k)).sum = 0 := by
  induction k with
  | zero => simp [zeros]
  | succ k ih => simp [zeros, List.replicate_succ]

theorem hgd_init_inv (y : Vec) (X X_t : Mat) (beta : Vec) (tau : ℚ) (n p : Nat)
    (hS : SolverShape y X X_t n p) (hb : beta.length = p) :
    HgdInv y X n p (hgd_init_val y X beta tau n p) := by
  obtain ⟨hy, hXr, -, -, -⟩ := hS
  refine ⟨⟨hb, hb, ?_, ?_, ?_, ?_, ?_⟩, rfl, rfl, ?_, le_rfl⟩
  · simp [hgd_init_val, zeros]
  · simp [hgd_init_val, zeros]
  · simp [hgd_init_val, mat_vec_val_length, hy, hXr]
  · simp [hgd_init_val, zeros]
  · simp [hgd_init_val, zeros]
  · simp only [hgd_init_val, dot_zeros]

theorem hgd_next_inv (y : Vec) (X X_t : Mat) (tau : ℚ) (n p : Nat) (s : HgdState) (d g : Vec)
    (hS : SolverShape y X X_t n p) (hs : HgdInv y X n p s) (hd : d.length = n)
    (hg : g.length = p) : HgdInv y X n p (hgd_next X tau n s d g) := by
  obtain ⟨hy, hXr, -, -, -⟩ := hS
  obtain ⟨hsh, hl, hr, -, hi⟩ := hs
  refine ⟨hgd_next_shape X tau n p s d g hsh hd hg hXr, rfl,
    hgd_next_resid y X tau n p s d g hy hXr hsh.1 hg hl hr, rfl, ?_⟩
  simp only [hgd_next]
  omega

theorem hgd_step_inv (y : Vec) (X X_t : Mat) (tau mu : ℚ) (n p : Nat) (one_over_n : ℚ)
    (s : HgdState) (hS : SolverShape y X X_t n p) (hs : HgdInv y X n p s) :
    ∃ d g, g.length = p ∧ hgd_step X X_t tau mu n one_over_n s = .ok (hgd_next X tau n s d g)
      ∧ HgdInv y X n p (hgd_next X tau n s d g) := by
  obtain ⟨d, g, -, hd, hg, hstep⟩ := hgd_step_spec y X X_t tau mu n p one_over_n s hS hs.1
  exact ⟨d, g, hg, hstep, hgd_next_inv y X X_t tau n p s d g hS hs hd hg⟩

theorem hgd_steps_inv (y : Vec) (X X_t : Mat) (tau mu : ℚ) (n p : Nat) (one_over_n : ℚ)
    (hS : SolverShape y X X_t n p) (k : Nat) (s : HgdState) (hs : HgdInv y X n p s) :
    ∃ s', hgd_steps X X_t tau mu n one_over_n k s = .ok s' ∧ HgdInv y X n p s'
      ∧ s'.i = s.i + k := by
  induction k generalizing s with
  | zero => exact ⟨s, rfl, hs, rfl⟩
  | succ k ih =>
    obtain ⟨d, g, -, hstep, hinv⟩ := hgd_step_inv y X X_t tau mu n p one_over_n s hS hs
    obtain ⟨s', h1, h2, h3⟩ := ih _ hinv
    refine ⟨s', ?_, h2, ?_⟩
    · simp only [hgd_steps, hstep, bind, Except.bind]
      exact h1
    · rw [h3]
      simp only [hgd_next]
      omega

theorem hgd_continue_lt (maxiter : Int) (beta_tol check_tol : ℚ) (s : HgdState)
    (h : hgd_continue maxiter beta_tol check_tol s = true) : (s.i : Int) < maxiter := by
  simp only [hgd_continue, Bool.and_eq_true, decide_eq_true_eq] at h
  exact h.1.1

theorem hgd_loop_spec (y : Vec) (X X_t : Mat) (tau mu : ℚ) (n p : Nat) (one_over_n : ℚ)
    (maxiter : Int) (beta_tol check_tol : ℚ) (hS : SolverShape y X X_t n p) (fuel : Nat)
    (s : HgdState) (hs : HgdInv y X n p s) (hf : (maxiter - s.i).toNat ≤ fuel) :
    ∃ k s', k ≤ (maxiter - s.i).toNat
      ∧ hgd_steps X X_t tau mu n one_over_n k s = .ok s'
      ∧ hgd_loop X X_t tau mu n one_over_n maxiter beta_tol check_tol fuel s = .ok s'
      ∧ hgd_continue maxiter beta_tol check_tol s' = false := by
  induction fuel generalizing s with
  | zero =>
    have hc : hgd_continue maxiter beta_tol check_tol s = false := by
      by_contra hne
      have := hgd_continue_lt _ _ _ _ (by simpa using hne)
      omega
    exact ⟨0, s, Nat.zero_le _, rfl, by simp [hgd_loop, hc], hc⟩
  | succ fuel ih =>
    by_cases hc : hgd_continue maxiter beta_tol check_tol s = true
    · have hlt := hgd_continue_lt _ _ _ _ hc
      obtain ⟨d, g, -, hstep, hinv⟩ := hgd_step_inv y X X_t tau mu n p one_over_n s hS hs
      have hi : (hgd_next X tau n s d g).i = s.i + 1 := rfl
      obtain ⟨k, s', hk, h1, h2, h3⟩ := ih _ hinv (by rw [hi]; omega)
      refine ⟨k + 1, s', by rw [hi] at hk; omega, ?_, ?_, h3⟩
      · simp only [hgd_steps, hstep, bind, Except.bind]
        exact h1
      · simp only [hgd_loop, hc, if_true, hstep, bind, Except.bind]
        exact h2
    · have hc' : hgd_continue maxiter beta_tol check_tol s = false := by simpa using hc
      exact ⟨0, s, Nat.zero_le _, rfl, by simp [hgd_loop, hc'], hc'⟩

theorem vec_add_ok_length (a b c : Vec) (h : vec_add a b = .ok c) : c.length = a.length := by
  unfold vec_add at h
  split_ifs at h with hl
  simp only [Except.ok.injEq] at h
  subst h
  simp [hl]

theorem mat_vec_ok_length (X : Mat) (v w : Vec) (h : mat_vec X v = .ok w) :
    X.n_cols = v.length ∧ w.length = X.n_rows := by
  unfold mat_vec at h
  split_ifs at h with hl
  simp only [Except.ok.injEq] at h
  subst h
  exact ⟨hl, by simp⟩

theorem vec_sub_ok_length (a b c : Vec) (h : vec_sub a b = .ok c) :
    a.length = b.length ∧ c.length = a.length := by
  unfold vec_sub at h
  split_ifs at h with hl
  simp only [Except.ok.injEq] at h
  subst h
  exact ⟨hl, by simp [hl]⟩

/-- A completed execution of the loop body advances the counter by one and keeps the size
of `beta`. -/
theorem hgd_step_ok_facts (X X_t : Mat) (tau mu : ℚ) (n : Nat) (one_over_n : ℚ)
    (s s' : HgdState) (h : hgd_step X X_t tau mu n one_over_n s = .ok s') :
    s'.i = s.i + 1 ∧ s'.beta.length = s.beta.length := by
  unfold hgd_step at h
  dsimp only at h
  split_ifs at h
  all_goals
    simp only [bind_eq_ok, pure, Except.pure, Except.ok.injEq] at h
    repeat' obtain ⟨_, h⟩ := h
    refine ⟨rfl, ?_⟩
    exact (vec_add_ok_length _ _ _ (by assumption)).trans
      (vec_add_ok_length _ _ _ (by assumption))

theorem hgd_init_ok_facts (y : Vec) (X : Mat) (beta : Vec) (tau : ℚ) (n p : Nat)
    (s : HgdState) (h : hgd_init y X beta tau n p = .ok s) :
    s.beta = beta ∧ s.i = 1 ∧ X.n_cols = beta.length ∧ y.length = X.n_rows := by
  unfold hgd_init at h
  simp only [bind_eq_ok, pure, Except.pure, Except.ok.injEq] at h
  obtain ⟨Xb, h1, r, h2, c, -, h⟩ := h
  subst h
  obtain ⟨h3, h4⟩ := mat_vec_ok_length _ _ _ h1
  obtain ⟨h5, -⟩ := vec_sub_ok_length _ _ _ h2
  exact ⟨rfl, rfl, h3, h5.trans h4⟩

/-! ### Termination and sizes -/

theorem noFuel_bind_ok {α β : Type} (x : Except Fault α) (f : α → Except Fault β)
    (hx : NoFuel x) (hf : ∀ a, x = .ok a → NoFuel (f a)) : NoFuel (x >>= f) := by
  cases x with
  | error e => simpa [NoFuel, bind, Except.bind] using hx
  | ok a => simpa [bind, Except.bind] using hf a rfl

/-- The loop never runs out of fuel when it has `maxiter - i` units. -/
theorem hgd_loop_noFuel (X X_t : Mat) (tau mu : ℚ) (n : Nat) (one_over_n : ℚ) (maxiter : Int)
    (beta_tol check_tol : ℚ) (fuel : Nat) (s : HgdState)
    (hf : (maxiter - s.i).toNat ≤ fuel) :
    NoFuel (hgd_loop X X_t tau mu n one_over_n maxiter beta_tol check_tol fuel s) := by
  induction fuel generalizing s with
  | zero =>
    have hc : hgd_continue maxiter beta_tol check_tol s = false := by
      by_contra hne
      have := hgd_continue_lt _ _ _ _ (by simpa using hne)
      omega
    simp [hgd_loop, hc, NoFuel]
  | succ fuel ih =>
    by_cases hc : hgd_continue maxiter beta_tol check_tol s = true
    · have hlt := hgd_continue_lt _ _ _ _ hc
      simp only [hgd_loop, hc, if_true]
      refine noFuel_bind_ok _ _ (hgd_step_noFuel _ _ _ _ _ _ _) (fun s1 h1 => ih s1 ?_)
      rw [(hgd_step_ok_facts _ _ _ _ _ _ _ _ h1).1]
      push_cast
      omega
    · have hc' : hgd_continue maxiter beta_tol check_tol s = false := by simpa using hc
      simp [hgd_loop, hc', NoFuel]

theorem hgd_init_noFuel (y : Vec) (X : Mat) (beta : Vec) (tau : ℚ) (n p : Nat) :
    NoFuel (hgd_init y X beta tau n p) := by
  unfold hgd_init
  repeat' first
    | exact noFuel_pure _
    | exact vec_sub_noFuel _ _
    | exact mat_vec_noFuel _ _
    | exact checkfun_noFuel _ _ _
    | (refine noFuel_bind _ _ ?_ (fun _ => ?_))

/-- The solver terminates on every input. -/
theorem huber_grad_descent_noFuel (y : Vec) (X X_t : Mat) (beta : Vec) (tau : ℚ) (n : Nat)
    (one_over_n : ℚ) (p : Nat) (maxiter : Int) (mu beta_tol check_tol : ℚ) :
    NoFuel (huber_grad_descent y X X_t beta tau n one_over_n p maxiter mu beta_tol check_tol) := by
  unfold huber_grad_descent
  refine noFuel_bind_ok _ _ (hgd_init_noFuel _ _ _ _ _ _) (fun s0 h0 => ?_)
  refine noFuel_bind _ _ ?_ (fun _ => noFuel_pure _)
  apply hgd_loop_noFuel
  rw [(hgd_init_ok_facts _ _ _ _ _ _ _ h0).2.1]
  omega

theorem shed_col_ok_shape (X X' : Mat) (i : Nat) (h : X.shed_col i = .ok X') :
    X'.n_rows = X.n_rows ∧ X'.n_cols + 1 = X.n_cols := by
  unfold Mat.shed_col at h
  split_ifs at h with hi
  simp only [Except.ok.injEq] at h
  subst h
  simp only [Mat.n_cols] at hi ⊢
  refine ⟨trivial, ?_⟩
  simp only [List.length_eraseIdx, hi, if_true]
  omega

theorem sub_cols_ok_shape (X X' : Mat) (i j : Nat) (h : X.sub_cols i j = .ok X') :
    X'.n_rows = X.n_rows := by
  unfold Mat.sub_cols at h
  split_ifs at h
  simp only [Except.ok.injEq] at h
  subst h
  rfl

theorem staysFinite_shape {α : Type} : StaysFinite (Except.error Fault.shape : Except Fault α) := by
  simp [StaysFinite]

theorem X_std_shape : SolverShape [-1, 0, 1] X_std (trans X_std) 3 2 :=
  ⟨rfl, rfl, rfl, rfl, by decide⟩

/-- At the head of the loop `resid` is what `y - X * beta` evaluates to. -/
theorem resid_eq_of_inv (y : Vec) (X X_t : Mat) (n p : Nat) (s : HgdState)
    (hS : SolverShape y X X_t n p) (hs : HgdInv y X n p s) :
    (mat_vec X s.beta >>= fun Xb => vec_sub y Xb) = .ok s.resid := by
  obtain ⟨hy, hXr, hXc, -, -⟩ := hS
  obtain ⟨hsh, -, hr, -, -⟩ := hs
  rw [mat_vec_ok X s.beta (hXc.trans hsh.1.symm)]
  simp only [bind, Except.bind]
  rw [vec_sub_ok y _ (by rw [mat_vec_val_length, hy, hXr]), hr]

/-- The initial `delta = min(1/tau, 1/(1-tau))` lies in `(1, 2]` for `tau` in the open unit
interval. -/
theorem init_delta_bounds (tau : ℚ) (h0 : 0 < tau) (h1 : tau < 1) :
    1 < min (1 / tau) (1 / (1 - tau)) ∧ min (1 / tau) (1 / (1 - tau)) ≤ 2 := by
  have h2 : 0 < 1 - tau := by linarith
  constructor
  · apply lt_min
    · rw [lt_div_iff₀ h0]; linarith
    · rw [lt_div_iff₀ h2]; linarith
  · by_cases h : tau ≤ 1 / 2
    · apply (min_le_right _ _).trans
      rw [div_le_iff₀ h2]; linarith
    · push_neg at h
      apply (min_le_left _ _).trans
      rw [div_le_iff₀ h0]; linarith

/-- A loop returns when every round returns and keeps an invariant. -/
theorem foldlM_ok_of_inv {α β : Type} (P : β → Prop) (f : β → α → Except Fault β) (l : List α)
    (hstep : ∀ b a, a ∈ l → P b → ∃ b', f b a = .ok b' ∧ P b') (b0 : β) (h0 : P b0) :
    ∃ b, l.foldlM f b0 = .ok b ∧ P b := by
  induction l generalizing b0 with
  | nil => exact ⟨b0, rfl, h0⟩
  | cons a l ih =>
    obtain ⟨b1, h1, hP⟩ := hstep b0 a (List.mem_cons_self a l) h0
    obtain ⟨b, h2, hb⟩ := ih (fun b a' ha' => hstep b a' (List.mem_cons_of_mem a ha')) b1 hP
    exact ⟨b, by rw [List.foldlM_cons, h1]; exact h2, hb⟩

theorem col_ok (X : Mat) (i : Nat) (h : i < X.n_cols) : X.col i = .ok (X.cols.getD i []) := by
  unfold Mat.n_cols at h
  simp [Mat.col, List.getElem?_eq_getElem h]

theorem set_col_ok (X : Mat) (i : Nat) (v : Vec) (hi : i < X.n_cols) (hv : v.length = X.n_rows) :
    X.set_col i v = .ok { X with cols := X.cols.set i v } := by
  simp [Mat.set_col, hi, hv]

theorem wf_getD (X : Mat) (i : Nat) (hwf : X.wf) (hi : i < X.n_cols) :
    (X.cols.getD i []).length = X.n_rows := by
  unfold Mat.n_cols at hi
  rw [List.getD_eq_getElem _ _ hi]
  exact hwf _ (List.getElem_mem hi)

theorem wf_set (X : Mat) (i : Nat) (v : Vec) (hwf : X.wf) (hv : v.length = X.n_rows) :
    Mat.wf { X with cols := X.cols.set i v } := by
  intro c hc
  rcases List.mem_or_eq_of_mem_set hc with h | h
  · exact hwf c h
  · rw [h]; exact hv

/-- Reading column `i`, transforming it by a length-preserving `g` and writing it back. -/
theorem set_col_step (X : Mat) (i : Nat) (g : Vec → Vec) (hg : ∀ c, (g c).length = c.length)
    (hwf : X.wf) (hi : i < X.n_cols) :
    ∃ X', (X.col i >>= fun c => X.set_col i (g c)) = .ok X'
      ∧ X' = { X with cols := X.cols.set i (g (X.cols.getD i [])) } ∧ X'.wf
      ∧ X'.n_rows = X.n_rows ∧ X'.n_cols = X.n_cols := by
  have hv : (g (X.cols.getD i [])).length = X.n_rows := by rw [hg, wf_getD X i hwf hi]
  refine ⟨_, ?_, rfl, wf_set X i _ hwf hv, rfl, by simp [Mat.n_cols]⟩
  rw [col_ok X i hi]
  simp only [bind, Except.bind]
  exact set_col_ok X i _ hi hv

theorem standardize_col_ok (c : Vec) (m s : ℚ) (hs : s ≠ 0) :
    standardize_col c m s = .ok (c.map fun x => (x - m) / s) := by
  simp [standardize_col, hs]

theorem standardize_col_zero (c : Vec) (m : ℚ) :
    standardize_col c m 0 = .error .nonfinite := by
  simp [standardize_col]

theorem unstandardize_col_length (c : Vec) (m s : ℚ) :
    (unstandardize_col c m s).length = c.length := by
  simp [unstandardize_col]

/-- The loop that transforms the columns back returns for consistent sizes. -/
theorem unstandardize_loop_ok (mx sx : Vec) (first last shift : Nat) (X : Mat) (hwf : X.wf)
    (hlast : last ≤ X.n_cols) (hmx : ∀ i, i < last → i - shift < mx.length)
    (hsx : ∀ i, i < last → i - shift < sx.length) :
    ∃ X', unstandardize_loop mx sx first last shift X = .ok X' ∧ X'.wf
      ∧ X'.n_rows = X.n_rows ∧ X'.n_cols = X.n_cols := by
  unfold unstandardize_loop
  apply foldlM_ok_of_inv (fun M : Mat => M.wf ∧ M.n_rows = X.n_rows ∧ M.n_cols = X.n_cols)
  · intro M i hi hM
    have hil : i < last := List.mem_range.mp (List.mem_of_mem_drop hi)
    obtain ⟨hMwf, hMr, hMc⟩ := hM
    obtain ⟨M', h1, -, h3, h4, h5⟩ := set_col_step M i
      (fun c => unstandardize_col c (mx.getD (i - shift) 0) (sx.getD (i - shift) 0))
      (fun c => unstandardize_col_length _ _ _) hMwf (by omega)
    refine ⟨M', ?_, h3, h4.trans hMr, h5.trans hMc⟩
    rw [vec_at_ok _ _ (hmx i hil), vec_at_ok _ _ (hsx i hil)]
    simpa only [bind, Except.bind] using h1
  · exact ⟨hwf, rfl, rfl⟩

theorem sum_zipWith_mul (a b : Vec) (m : Nat) (ha : a.length = m) (hb : b.length = m) :
    (List.zipWith (fun x y => x * y) a b).sum
      = ∑ j in Finset.range m, a.getD j 0 * b.getD j 0 := by
  rw [← sum_map_range]
  congr 1
  apply List.ext_getElem
  · simp [ha, hb]
  · intro i h1 h2
    simp only [List.length_zipWith, ha, hb, min_self] at h1
    simp [List.getD_eq_getElem?_getD, List.getElem?_eq_getElem, ha, hb, h1]

theorem getD_set_self (l : List Vec) (i : Nat) (v : Vec) (h : i < l.length) :
    (l.set i v).getD i [] = v := by
  simp [List.getD_eq_getElem?_getD, List.getElem?_set, h]

theorem getD_set_ne (l : List Vec) (i j : Nat) (v : Vec) (h : i ≠ j) :
    (l.set i v).getD j [] = l.getD j [] := by
  simp [List.getD_eq_getElem?_getD, List.getElem?_set, h]

/-- The standardization loop after `k` rounds in which no divisor was zero: the first `k`
columns of `X` are standardized with `mx(i)` and `sx(i)`, the others are untouched. -/
theorem standardize_prefix (mx sx : Vec) (ws : Int) (X X_sub : Mat) (hwf : X.wf)
    (hmx : X.n_cols ≤ mx.length) (hsx : X.n_cols ≤ sx.length)
    (hsub : ws = 1 → X_sub.wf ∧ X.n_cols ≤ X_sub.n_cols) (k : Nat) (hk : k ≤ X.n_cols)
    (hnz : ∀ i, i < k → sx.getD i 0 ≠ 0) :
    ∃ X' X_sub', (List.range k).foldlM (fun (acc : Mat × Mat) i => do
          let m ← vec_at mx i
          let s ← vec_at sx i
          let c ← acc.1.col i
          let z ← standardize_col c m s
          let X ← acc.1.set_col i z
          if ws = 1 then do
            let c_sub ← acc.2.col i
            let z_sub ← standardize_col c_sub m s
            let X_sub ← acc.2.set_col i z_sub
            pure (X, X_sub)
          else pure (X, acc.2)) (X, X_sub) = .ok (X', X_sub')
      ∧ X'.wf ∧ X'.n_rows = X.n_rows ∧ X'.n_cols = X.n_cols
      ∧ (∀ i, i < k → standardize_col (X.cols.getD i []) (mx.getD i 0) (sx.getD i 0)
          = .ok (X'.cols.getD i []))
      ∧ (∀ i, k ≤ i → X'.cols.getD i [] = X.cols.getD i [])
      ∧ X_sub'.n_rows = X_sub.n_rows ∧ X_sub'.n_cols = X_sub.n_cols
      ∧ (ws = 1 → X_sub'.wf) ∧ (ws ≠ 1 → X_sub' = X_sub) := by
  induction k with
  | zero =>
    exact ⟨X, X_sub, rfl, hwf, rfl, rfl, by simp, by simp, rfl, rfl, fun h => (hsub h).1,
      fun _ => rfl⟩
  | succ k ih =>
    obtain ⟨X1, Xs1, hfold, h1, h2, h3, h4, h5, h6, h7, h8, h9⟩ :=
      ih (Nat.le_of_succ_le hk) (fun i hi => hnz i (Nat.lt_succ_of_lt hi))
    have hsk : sx.getD k 0 ≠ 0 := hnz k (Nat.lt_succ_self k)
    have hkX : k < X1.n_cols := by rw [h3]; exact hk
    have hcol : X1.cols.getD k [] = X.cols.getD k [] := h5 k le_rfl
    obtain ⟨X2, e1, e2, e3, e4, e5⟩ := set_col_step X1 k
      (fun c => c.map fun x => (x - mx.getD k 0) / sx.getD k 0)
      (fun c => List.length_map _ _) h1 hkX
    rw [col_ok X1 k hkX] at e1
    simp only [bind, Except.bind] at e1
    have hX2lt : ∀ i, i < k + 1 →
        standardize_col (X.cols.getD i []) (mx.getD i 0) (sx.getD i 0)
          = .ok (X2.cols.getD i []) := by
      intro i hi
      rw [e2]
      rcases Nat.lt_succ_iff_lt_or_eq.mp hi with h | h
      · rw [h4 i h, getD_set_ne _ _ _ _ (by omega)]
      · subst h
        rw [getD_set_self _ _ _ hkX, hcol]
        exact standardize_col_ok _ _ _ hsk
    have hX2ge : ∀ i, k + 1 ≤ i → X2.cols.getD i [] = X.cols.getD i [] := by
      intro i hi
      rw [e2, ← h5 i (by omega)]
      exact getD_set_ne _ _ _ _ (by omega)
    rw [List.range_succ, List.foldlM_append, hfold]
    simp only [List.foldlM_cons, List.foldlM_nil, bind, Except.bind,
      vec_at_ok mx k (by omega), vec_at_ok sx k (by omega), col_ok X1 k hkX,
      standardize_col_ok _ _ _ hsk, e1]
    by_cases hw : ws = 1
    · obtain ⟨hswf, hsn⟩ := hsub hw
      have hkS : k < Xs1.n_cols := by rw [h7]; omega
      obtain ⟨Xs2, f1, -, f3, f4, f5⟩ := set_col_step Xs1 k
        (fun c => c.map fun x => (x - mx.getD k 0) / sx.getD k 0)
        (fun c => List.length_map _ _) (h8 hw) hkS
      rw [col_ok Xs1 k hkS] at f1
      simp only [bind, Except.bind] at f1
      refine ⟨X2, Xs2, ?_, e3, e4.trans h2, e5.trans h3, hX2lt, hX2ge, f4.trans h6,
        f5.trans h7, fun _ => f3, fun h => absurd hw h⟩
      simp only [hw, if_true, col_ok Xs1 k hkS, standardize_col_ok _ _ _ hsk, f1, pure,
        Except.pure]
    · refine ⟨X2, Xs1, ?_, e3, e4.trans h2, e5.trans h3, hX2lt, hX2ge, h6, h7,
        fun h => absurd h hw, h9⟩
      simp only [hw, if_false, pure, Except.pure]

/-- The standardization loop stops at the first division by a zero `sx(i)`: no size check
fails before it. -/
theorem standardize_stops (mx sx : Vec) (ws : Int) (X X_sub : Mat) (hwf : X.wf)
    (hmx : X.n_cols ≤ mx.length) (hsx : X.n_cols ≤ sx.length)
    (hsub : ws = 1 → X_sub.wf ∧ X.n_cols ≤ X_sub.n_cols) (k : Nat) (hk : k ≤ X.n_cols)
    (hz : ∃ i, i < k ∧ sx.getD i 0 = 0) :
    (List.range k).foldlM (fun (acc : Mat × Mat) i => do
          let m ← vec_at mx i
          let s ← vec_at sx i
          let c ← acc.1.col i
          let z ← standardize_col c m s
          let X ← acc.1.set_col i z
          if ws = 1 then do
            let c_sub ← acc.2.col i
            let z_sub ← standardize_col c_sub m s
            let X_sub ← acc.2.set_col i z_sub
            pure (X, X_sub)
          else pure (X, acc.2)) (X, X_sub) = .error .nonfinite := by
  induction k with
  | zero =>
    obtain ⟨i, hi, -⟩ := hz
    omega
  | succ k ih =>
    rw [List.range_succ, List.foldlM_append]
    by_cases hbefore : ∃ i, i < k ∧ sx.getD i 0 = 0
    · rw [ih (Nat.le_of_succ_le hk) hbefore]
      rfl
    · have hnz : ∀ i, i < k → sx.getD i 0 ≠ 0 := fun i hi h0 => hbefore ⟨i, hi, h0⟩
      have hk0 : sx.getD k 0 = 0 := by
        obtain ⟨i, hi, h0⟩ := hz
        rcases Nat.lt_succ_iff_lt_or_eq.mp hi with h | h
        · exact absurd h0 (hnz i h)
        · rw [← h]; exact h0
      obtain ⟨X1, Xs1, hfold, -, -, h3, -⟩ :=
        standardize_prefix mx sx ws X X_sub hwf hmx hsx hsub k (Nat.le_of_succ_le hk) hnz
      have hkX : k < X1.n_cols := by rw [h3]; exact hk
      rw [hfold]
      simp only [List.foldlM_cons, List.foldlM_nil, bind, Except.bind,
        vec_at_ok mx k (by omega), vec_at_ok sx k (by omega), col_ok X1 k hkX, hk0,
        standardize_col_zero]

/-- The standardization loop returns for consistent sizes when no `sx(i)` is zero. -/
theorem standardize_loop_ok (mx sx : Vec) (ws : Int) (X X_sub : Mat) (hwf : X.wf)
    (hmx : X.n_cols ≤ mx.length) (hsx : X.n_cols ≤ sx.length)
    (hsub : ws = 1 → X_sub.wf ∧ X.n_cols ≤ X_sub.n_cols)
    (hnz : ∀ i, i < X.n_cols → sx.getD i 0 ≠ 0) :
    ∃ X' X_sub', standardize_loop mx sx ws X X_sub = .ok (X', X_sub')
      ∧ X'.n_rows = X.n_rows
      ∧ (∀ i, i < X.n_cols → standardize_col (X.cols.getD i []) (mx.getD i 0) (sx.getD i 0)
          = .ok (X'.cols.getD i []))
      ∧ X_sub'.n_rows = X_sub.n_rows := by
  obtain ⟨X', Xs', h, -, h2, -, h4, -, h6, -, -, -⟩ :=
    standardize_prefix mx sx ws X X_sub hwf hmx hsx hsub X.n_cols le_rfl hnz
  exact ⟨X', Xs', h, h2, h4, h6⟩

/-- For consistent sizes and some `sx(i) = 0` the standardization loop divides by zero. -/
theorem standardize_loop_stops (mx sx : Vec) (ws : Int) (X X_sub : Mat) (hwf : X.wf)
    (hmx : X.n_cols ≤ mx.length) (hsx : X.n_cols ≤ sx.length)
    (hsub : ws = 1 → X_sub.wf ∧ X.n_cols ≤ X_sub.n_cols)
    (hz : ∃ i, i < X.n_cols ∧ sx.getD i 0 = 0) :
    standardize_loop mx sx ws X X_sub = .error .nonfinite :=
  standardize_stops mx sx ws X X_sub hwf hmx hsx hsub X.n_cols le_rfl hz

theorem shed_col_ok (X : Mat) (i : Nat) (h : i < X.n_cols) :
    X.shed_col i = .ok { X with cols := X.cols.eraseIdx i } := by
  simp [Mat.shed_col, h]

theorem wf_eraseIdx (X : Mat) (i : Nat) (hwf : X.wf) :
    Mat.wf { X with cols := X.cols.eraseIdx i } := by
  intro c hc
  exact hwf c (List.mem_of_mem_eraseIdx hc)

theorem join_rows_ok (v : Vec) (X : Mat) (h : v.length = X.n_rows) :
    join_rows v X = .ok { X with cols := v :: X.cols } := by
  simp [join_rows, h]

/-! ## The claims -/

/-- Claim C1 (fails on the code).  With `warm_start = 1` and the caller's cap
`maxiter = 10000`, the warm-start call of `huber_grad_descent` receives `maxiter = 100`
and so does the full-data call: the argument expression `maxiter = 100` of the warm-start
call overwrites the local variable that the full-data call passes on.  The full-data call
does not receive the caller's value. -/
theorem fit_warm_start_overwrites_maxiter :
    args_warm.warm_start = 1 ∧ args_warm.maxiter = 10000
      ∧ (fit_approx_quantile_model lib0 args_warm).map (fun r => r.solver_maxiter)
          = .ok [100, 100]
      ∧ (fit_approx_quantile_model lib0 args_warm).map (fun r => r.solver_maxiter)
          ≠ .ok [100, args_warm.maxiter] := by
  decide!

/-- Claim C2 (fails on the code).  For the call `args_second` (intercept in column 2 of a
matrix with `p = 2` columns) the coefficient vector before reordering is `[5/2, 1/2]`,
intercept first, as returned for the same data with the intercept in column 1 (`args_warm`).  The statements `beta.insert_rows(intercept - 1, beta(0))` and
`beta.shed_row(0)` turn it into `[0, 0, 1/2]`: two zero rows are inserted (the row count
is `beta(0) = 5/2` truncated), the intercept is then removed, and the returned vector has
length 3 instead of `p = 2` and holds the intercept nowhere.  Were `beta(0)` inserted as a
value instead, it would land at index `k - 2 = 0` after the removal of row 0, not at
`k - 1`: the result would be `[5/2, 1/2]`, still not `[1/2, 5/2]`. -/
theorem fit_reorder_loses_intercept :
    args_second.X.n_cols = 2 ∧ args_second.intercept = 2
      ∧ (fit_approx_quantile_model lib0 args_warm).map (fun r => r.beta) = .ok [5 / 2, 1 / 2]
      ∧ reorder_coefficients [5 / 2, 1 / 2] 2 = .ok [0, 0, 1 / 2]
      ∧ (fit_approx_quantile_model lib0 args_second).map (fun r => r.beta)
          = .ok [0, 0, 1 / 2]
      ∧ (fit_approx_quantile_model lib0 args_second).map (fun r => r.beta)
          ≠ .ok [1 / 2, 5 / 2]
      ∧ reorder_coefficients_by_value [5 / 2, 1 / 2] 2 = .ok [5 / 2, 1 / 2] := by
  decide!

/-- Claim C3.  For a residual vector `r` of length `n`, a buffer `derivs` of length `n`, a
matrix `X_t` with `n` columns and `mu > 0`, `update_huber_grad` returns; it leaves in
`derivs(i)`, for every `i < n`, the value `tau` if `r(i) > mu`, `tau - 1` if `r(i) < -mu`,
`r(i) * tau / mu` if `0 ≤ r(i) ≤ mu` and `r(i) * (tau - 1) / mu` if `-mu ≤ r(i) < 0`; and
it leaves in `grad` the product `X_t * derivs * one_over_n`, entry `j` being
`(Σ_i X_t(j, i) * derivs(i)) * one_over_n`, which is `(Σ_i X(i, j) * derivs(i)) / n` when
`X_t` is the transpose of `X` and `one_over_n = 1 / n`. -/
theorem update_huber_grad_spec (X_t : Mat) (r derivs : Vec) (tau mu one_over_n : ℚ) (n : Nat)
    (hmu : 0 < mu) (hr : r.length = n) (hd : derivs.length = n) (hX : X_t.n_cols = n) :
    ∃ d g, update_huber_grad X_t r derivs tau mu n one_over_n = .ok (d, g)
      ∧ d.length = n ∧ g.length = X_t.n_rows
      ∧ (∀ i, i < n →
          (r.getD i 0 > mu → d.getD i 0 = tau)
          ∧ (r.getD i 0 < -mu → d.getD i 0 = tau - 1)
          ∧ (0 ≤ r.getD i 0 → r.getD i 0 ≤ mu → d.getD i 0 = r.getD i 0 * tau / mu)
          ∧ (-mu ≤ r.getD i 0 → r.getD i 0 < 0 → d.getD i 0 = r.getD i 0 * (tau - 1) / mu))
      ∧ (∀ j, j < X_t.n_rows →
          g.getD j 0 = (∑ i in Finset.range n, X_t.entry j i * d.getD i 0) * one_over_n)
      ∧ (∀ X : Mat, X_t = trans X → one_over_n = 1 / (n : ℚ) → ∀ j, j < X.n_cols →
          g.getD j 0 = (∑ i in Finset.range n, X.entry i j * d.getD i 0) / (n : ℚ)) := by
  obtain ⟨d, hfold, hlen, hlt, -⟩ := derivs_loop r derivs tau mu n hr.ge hd.ge
  have hdn : d.length = n := hlen.trans hd
  have hg : ∀ j, j < X_t.n_rows →
      (((List.range X_t.n_rows).map fun r =>
        ((List.range X_t.n_cols).map fun c => X_t.entry r c * d.getD c 0).sum).map
          fun x => x * one_over_n).getD j 0
        = (∑ i in Finset.range n, X_t.entry j i * d.getD i 0) * one_over_n := by
    intro j hj
    simp [List.getD_eq_getElem?_getD, List.getElem?_map, List.getElem?_range, hj, hX,
      ← sum_map_range]
  refine ⟨d, _, ?_, hdn, ?_, ?_, hg, ?_⟩
  · unfold update_huber_grad
    rw [hfold]
    simp [mat_vec, hX, hdn, bind, Except.bind, pure, Except.pure]
  · simp
  · intro i hi
    rw [hlt i hi]
    exact huber_deriv_cases _ tau mu hmu
  · intro X hXt hone j hj
    have hj2 : j < X_t.n_rows := by rw [hXt]; exact hj
    rw [hg j hj2, hone, mul_one_div]
    congr 1
    apply Finset.sum_congr rfl
    intro i hi
    have hi2 : i < X.n_rows := by
      have : (trans X).n_cols = X.n_rows := by simp [trans, Mat.n_cols]
      rw [← this, ← hXt, hX]; exact Finset.mem_range.mp hi
    rw [hXt, trans_entry X i j hi2 hj]

/-- Claim C3 at the residuals `[2, -1/2]` with `mu = 1`, `tau = 1/2`, `n = 2` and the
transpose of the one-column matrix of ones: `derivs = [1/2, 1/4]` and `grad = [3/8]`. -/
theorem update_huber_grad_spec_witness :
    (0 : ℚ) < 1 ∧ ([2, -1 / 2] : Vec).length = 2
      ∧ update_huber_grad (trans ⟨2, [[1, 1]]⟩) [2, -1 / 2] [0, 0] (1 / 2) 1 2 (1 / 2)
          = .ok ([1 / 2, 1 / 4], [3 / 8])
      ∧ ∃ d g, update_huber_grad (trans ⟨2, [[1, 1]]⟩) [2, -1 / 2] [0, 0] (1 / 2) 1 2 (1 / 2)
          = .ok (d, g) ∧ d.length = 2 :=
  ⟨by norm_num, rfl, by decide!,
    let ⟨d, g, h, hlen, _⟩ :=
      update_huber_grad_spec (trans ⟨2, [[1, 1]]⟩) [2, -1 / 2] [0, 0] (1 / 2) 1 (1 / 2) 2
        (by norm_num) rfl rfl rfl
    ⟨d, g, h, hlen⟩⟩

/-- Claim C4 (fails on the code).  For `mu = 1` and `tau = 1/4` the value stored for the
residual `r = -mu` is `3/4`: it is not the outer value `tau - 1 = -3/4`, it does not lie
between `tau - 1` and `tau`, and the stored value as a function of the residual is not
continuous (just below `-mu` it is `-3/4`). -/
theorem huber_deriv_jumps_at_lower_edge :
    huber_deriv (-1) (1 / 4) 1 = 3 / 4
      ∧ huber_deriv (-1) (1 / 4) 1 ≠ 1 / 4 - 1
      ∧ ¬ (huber_deriv (-1) (1 / 4) 1 ≤ 1 / 4)
      ∧ huber_deriv (-1 - 1 / 1000) (1 / 4) 1 = 1 / 4 - 1
      ∧ ¬ Continuous (fun r : ℚ => huber_deriv r (1 / 4) 1) := by
  refine ⟨by decide!, by decide!, by decide!, by decide!, ?_⟩
  intro hc
  have hcl : IsClosed (Set.preimage (fun r : ℚ => huber_deriv r (1 / 4) 1) {-3 / 4}) :=
    isClosed_singleton.preimage hc
  have hset : Set.preimage (fun r : ℚ => huber_deriv r (1 / 4) 1) {-3 / 4} = Set.Iio (-1) := by
    ext r
    simp only [Set.mem_preimage, Set.mem_singleton_iff, Set.mem_Iio, huber_deriv]
    split_ifs with h1 h2 h3
    · constructor
      · intro h; norm_num at h
      · intro h; linarith
    · constructor
      · intro _; exact h2
      · intro _; norm_num
    · constructor
      · intro h; linarith
      · intro h; linarith
    · constructor
      · intro h; linarith
      · intro h; linarith
  rw [hset] at hcl
  have hclos := hcl.closure_eq
  rw [closure_Iio (-1 : ℚ)] at hclos
  have hmem : (-1 : ℚ) ∈ Set.Iio (-1 : ℚ) := by
    rw [← hclos]; exact Set.right_mem_Iic
  exact lt_irrefl (-1 : ℚ) (Set.mem_Iio.mp hmem)

/-- Claim C5.  For a vector `r` with at least `n` entries and every `tau`, `checkfun`
returns the sum over `i < n` of `r(i) * (tau - [r(i) < 0])`, which is also the sum of
`max (tau * r(i)) ((tau - 1) * r(i))` (for every `tau`, in particular for `0 ≤ tau ≤ 1`). -/
theorem checkfun_pinball_sum (r : Vec) (tau : ℚ) (n : Nat) (h : n ≤ r.length) :
    checkfun r tau n
        = .ok (∑ i in Finset.range n, r.getD i 0 * (tau - if r.getD i 0 < 0 then 1 else 0))
      ∧ checkfun r tau n
        = .ok (∑ i in Finset.range n, max (tau * r.getD i 0) ((tau - 1) * r.getD i 0)) := by
  refine ⟨?_, ?_⟩
  · rw [checkfun_eq_sum r tau n h]; rfl
  · rw [checkfun_eq_sum r tau n h]
    congr 1
    exact Finset.sum_congr rfl fun i _ => checkfun1_eq_max _ _

/-- Claim C5 at `r = [2, -4, 0]`, `tau = 1/4`, `n = 3`: the loss is `1/2 + 3 + 0`. -/
theorem checkfun_pinball_sum_witness :
    3 ≤ ([2, -4, 0] : Vec).length ∧ checkfun [2, -4, 0] (1 / 4) 3 = .ok (7 / 2) :=
  ⟨by decide, (checkfun_pinball_sum [2, -4, 0] (1 / 4) 3 (by decide)).1.trans (by decide!)⟩

/-- Claim C6.  For `tau` in the open unit interval and a vector `r` of length `n`,
`checkfun` returns a non-negative value, and the value is zero exactly when every entry of
`r` is zero. -/
theorem checkfun_nonneg_zero_iff (r : Vec) (tau : ℚ) (n : Nat) (h0 : 0 < tau) (h1 : tau < 1)
    (h : r.length = n) :
    ∃ v, checkfun r tau n = .ok v ∧ 0 ≤ v ∧ (v = 0 ↔ ∀ x ∈ r, x = 0) := by
  refine ⟨_, checkfun_eq_sum r tau n h.ge, ?_, ?_⟩
  · exact Finset.sum_nonneg fun i _ => checkfun1_nonneg _ _ h0 h1
  · rw [Finset.sum_eq_zero_iff_of_nonneg fun i _ => checkfun1_nonneg _ _ h0 h1,
      forall_mem_iff_getD r n h]
    constructor
    · intro hz i hi
      exact (checkfun1_eq_zero_iff _ _ h0 h1).mp (hz i (Finset.mem_range.mpr hi))
    · intro hz i hi
      exact (checkfun1_eq_zero_iff _ _ h0 h1).mpr (hz i (Finset.mem_range.mp hi))

/-- Claim C6 at `r = [2, -4, 0]`, `tau = 1/4`. -/
theorem checkfun_nonneg_zero_iff_witness :
    (0 : ℚ) < 1 / 4 ∧ (1 / 4 : ℚ) < 1
      ∧ ∃ v, checkfun [2, -4, 0] (1 / 4) 3 = .ok v ∧ 0 ≤ v
          ∧ (v = 0 ↔ ∀ x ∈ ([2, -4, 0] : Vec), x = 0) :=
  ⟨by norm_num, by norm_num,
    checkfun_nonneg_zero_iff [2, -4, 0] (1 / 4) 3 (by norm_num) (by norm_num) rfl⟩

/-- Claim C7.  The loss is convex in the residual vector: for vectors `a`, `b` of length
`n` and `lam` in `[0, 1]`, the combination `lam * a + (1 - lam) * b` is a vector `c` with
`checkfun c ≤ lam * checkfun a + (1 - lam) * checkfun b`, all three calls returning.  This
holds for every `tau`, in particular for `tau` in the open unit interval. -/
theorem checkfun_convex (a b : Vec) (tau lam : ℚ) (n : Nat)
    (hl0 : 0 ≤ lam) (hl1 : lam ≤ 1) (ha : a.length = n) (hb : b.length = n) :
    ∃ c va vb vc, vec_add (vec_scale lam a) (vec_scale (1 - lam) b) = .ok c
      ∧ checkfun a tau n = .ok va ∧ checkfun b tau n = .ok vb ∧ checkfun c tau n = .ok vc
      ∧ vc ≤ lam * va + (1 - lam) * vb := by
  have hab : a.length = b.length := ha.trans hb.symm
  have hc : vec_add (vec_scale lam a) (vec_scale (1 - lam) b)
      = .ok (List.zipWith (fun x y => x + y) (vec_scale lam a) (vec_scale (1 - lam) b)) := by
    simp [vec_add, vec_scale, hab]
  have hclen : (List.zipWith (fun x y => x + y) (vec_scale lam a)
      (vec_scale (1 - lam) b)).length = n := by
    simp [vec_scale, ha, hb]
  refine ⟨_, _, _, _, hc, checkfun_eq_sum a tau n ha.ge, checkfun_eq_sum b tau n hb.ge,
    checkfun_eq_sum _ tau n hclen.ge, ?_⟩
  rw [Finset.mul_sum, Finset.mul_sum, ← Finset.sum_add_distrib]
  apply Finset.sum_le_sum
  intro i _
  rw [getD_zipWith_add_scale a b lam i hab]
  exact checkfun1_convex _ _ _ _ hl0 hl1

/-- Claim C7 at `a = [2, -4]`, `b = [-2, 6]`, `tau = 1/4`, `lam = 1/2`. -/
theorem checkfun_convex_witness :
    (0 : ℚ) ≤ 1 / 2 ∧ (1 / 2 : ℚ) ≤ 1
      ∧ ∃ c va vb vc, vec_add (vec_scale (1 / 2) [2, -4]) (vec_scale (1 - 1 / 2) [-2, 6]) = .ok c
          ∧ checkfun [2, -4] (1 / 4) 2 = .ok va ∧ checkfun [-2, 6] (1 / 4) 2 = .ok vb
          ∧ checkfun c (1 / 4) 2 = .ok vc ∧ vc ≤ 1 / 2 * va + (1 - 1 / 2) * vb :=
  ⟨by norm_num, by norm_num,
    checkfun_convex [2, -4] [-2, 6] (1 / 4) (1 / 2) 2 (by norm_num) (by norm_num) rfl rfl⟩

/-- Claim C8 (fails on the code).  For the call `args_warm` the predictor column
`[1, 3, 5]` has mean 3 and standard deviation 2; it is standardized to `[-1, 0, 1]` and
the backward step `(X.col(i) + m) * s` makes `[4, 6, 8]` of it, which is what the caller
finds in `X` on return, not the original column. -/
theorem fit_does_not_restore_X :
    col_means { X_first with cols := [[1, 3, 5]] } = [3]
      ∧ col_stddevs lib0 { X_first with cols := [[1, 3, 5]] } = [2]
      ∧ standardize_col [1, 3, 5] 3 2 = .ok [-1, 0, 1]
      ∧ unstandardize_col [-1, 0, 1] 3 2 = [4, 6, 8]
      ∧ (fit_approx_quantile_model lib0 args_warm).map (fun r => r.X)
          = .ok { n_rows := 3, cols := [[1, 1, 1], [4, 6, 8]] }
      ∧ (fit_approx_quantile_model lib0 args_warm).map (fun r => r.X) ≠ .ok args_warm.X := by
  decide!

/-- Claim C9 (fails on the code).  For the call `args_plain`, which has `intercept = 0`,
the response `[3, 4, 5]` (mean 4) is not centred, yet the mean is added on the way out:
the caller finds `[7, 8, 9]` in `y` on return. -/
theorem fit_shifts_y_without_intercept :
    args_plain.intercept = 0 ∧ args_plain.y = [3, 4, 5]
      ∧ (fit_approx_quantile_model lib0 args_plain).map (fun r => r.y) = .ok [7, 8, 9] := by
  decide!

/-- Claim C10 (fails on the code).  For the matrix with columns `ones, [2, 3], [4, 5]`
and the target position `k = 2`, `reorder_columns` yields the columns
`[0, 0], ones, [4, 5]`: the ones column is at index `k - 1`, but the data column `[2, 3]`
is overwritten and a zero column is introduced.  For `k = 3` it yields
`[2, 3], [0, 0], ones` and the data column `[4, 5]` is lost. -/
theorem reorder_columns_overwrites_a_data_column :
    reorder_columns X_three 2 = .ok { n_rows := 2, cols := [[0, 0], [1, 1], [4, 5]] }
      ∧ reorder_columns X_three 2 ≠ .ok { n_rows := 2, cols := [[2, 3], [1, 1], [4, 5]] }
      ∧ reorder_columns X_three 3 = .ok { n_rows := 2, cols := [[2, 3], [0, 0], [1, 1]] }
      ∧ reorder_columns X_three 3 ≠ .ok { n_rows := 2, cols := [[2, 3], [4, 5], [1, 1]] } := by
  decide!

/-- Claim C11 (fails on the code).  For the matrix with columns `ones, [2, 3], [4, 5]`,
`reorder_columns(X, 2)` followed by `reorder_columns(., 1)` yields the columns
`[0, 0], ones, [4, 5]`, not the original matrix. -/
theorem reorder_columns_back_to_one_does_not_restore :
    (reorder_columns X_three 2 >>= fun Y => reorder_columns Y 1)
        = .ok { n_rows := 2, cols := [[0, 0], [1, 1], [4, 5]] }
      ∧ (reorder_columns X_three 2 >>= fun Y => reorder_columns Y 1) ≠ .ok X_three := by
  decide!

/-- Claim C11 as amended.  The target position 1 is a no-op: `reorder_columns(Y, 1)`
returns every matrix `Y` unchanged (after `intercept = intercept - 1` the guard
`intercept > 0` is false).  It therefore undoes nothing: `reorder_columns(X, k)` followed
by `reorder_columns(., 1)` gives what `reorder_columns(X, k)` alone gives. -/
theorem reorder_columns_one_is_identity (X : Mat) (k : Int) :
    reorder_columns X 1 = .ok X
      ∧ (reorder_columns X k >>= fun Y => reorder_columns Y 1) = reorder_columns X k := by
  have h1 : ∀ Y : Mat, reorder_columns Y 1 = .ok Y := by
    intro Y
    simp [reorder_columns]
  refine ⟨h1 X, ?_⟩
  cases h : reorder_columns X k with
  | error e => rfl
  | ok Y => simpa [bind, Except.bind] using h1 Y

/-- Claim C12.  `huber_grad_descent` terminates on every input: the loop never needs more
than the fuel it is given.  For arguments of consistent sizes it returns a value, the
`beta` of the state reached after `k` executions of the loop body with
`k ≤ max(maxiter - 1, 0)`, at which the loop condition is false; no outcome signals
non-convergence.  When `maxiter ≤ 1` the value returned is the initial `beta`.  (For
arguments of inconsistent sizes the only other outcome is the size error of the matrix
library.) -/
theorem huber_grad_descent_terminates (y : Vec) (X X_t : Mat) (beta : Vec) (tau : ℚ) (n : Nat)
    (one_over_n : ℚ) (p : Nat) (maxiter : Int) (mu beta_tol check_tol : ℚ) :
    huber_grad_descent y X X_t beta tau n one_over_n p maxiter mu beta_tol check_tol
        ≠ .error .fuel
      ∧ (SolverShape y X X_t n p → beta.length = p →
          ∃ s0 k s, hgd_init y X beta tau n p = .ok s0
            ∧ k ≤ (maxiter - 1).toNat
            ∧ hgd_steps X X_t tau mu n one_over_n k s0 = .ok s
            ∧ hgd_continue maxiter beta_tol check_tol s = false
            ∧ huber_grad_descent y X X_t beta tau n one_over_n p maxiter mu beta_tol check_tol
                = .ok s.beta
            ∧ (maxiter ≤ 1 → s.beta = beta)) := by
  refine ⟨huber_grad_descent_noFuel _ _ _ _ _ _ _ _ _ _ _ _, fun hS hb => ?_⟩
  have h0 := hgd_init_spec y X X_t beta tau n p hS hb
  have hinv := hgd_init_inv y X X_t beta tau n p hS hb
  have hi : (hgd_init_val y X beta tau n p).i = 1 := rfl
  obtain ⟨k, s, hk, hsteps, hloop, hstop⟩ :=
    hgd_loop_spec y X X_t tau mu n p one_over_n maxiter beta_tol check_tol hS maxiter.toNat
      _ hinv (by rw [hi]; omega)
  rw [hi] at hk
  refine ⟨_, k, s, h0, by simpa using hk, hsteps, hstop, ?_, ?_⟩
  · simp only [huber_grad_descent, h0, hloop, bind, Except.bind, pure, Except.pure]
  · intro hm
    have hk0 : k = 0 := by
      have : (maxiter - 1).toNat = 0 := by omega
      have hk' : k ≤ (maxiter - 1).toNat := by simpa using hk
      omega
    subst hk0
    simp only [hgd_steps, Except.ok.injEq] at hsteps
    rw [← hsteps]
    rfl

/-- Claim C12 at the standardized design `X_std`, `y = [-1, 0, 1]`, `beta = [0, 0]`,
`tau = 1/2` and `maxiter = 3`. -/
theorem huber_grad_descent_terminates_witness :
    SolverShape [-1, 0, 1] X_std (trans X_std) 3 2 ∧ ([0, 0] : Vec).length = 2
      ∧ huber_grad_descent [-1, 0, 1] X_std (trans X_std) [0, 0] (1 / 2) 3 (1 / 3) 2 3
          (1 / 1000) (1 / 10000) (1 / 1000000) ≠ .error .fuel
      ∧ ∃ s0 k s, hgd_init [-1, 0, 1] X_std [0, 0] (1 / 2) 3 2 = .ok s0
          ∧ k ≤ ((3 : Int) - 1).toNat
          ∧ hgd_steps X_std (trans X_std) (1 / 2) (1 / 1000) 3 (1 / 3) k s0 = .ok s
          ∧ hgd_continue 3 (1 / 10000) (1 / 1000000) s = false
          ∧ huber_grad_descent [-1, 0, 1] X_std (trans X_std) [0, 0] (1 / 2) 3 (1 / 3) 2 3
              (1 / 1000) (1 / 10000) (1 / 1000000) = .ok s.beta
          ∧ ((3 : Int) ≤ 1 → s.beta = [0, 0]) :=
  ⟨X_std_shape, rfl,
    (huber_grad_descent_terminates [-1, 0, 1] X_std (trans X_std) [0, 0] (1 / 2) 3 (1 / 3) 2 3
      (1 / 1000) (1 / 10000) (1 / 1000000)).1,
    (huber_grad_descent_terminates [-1, 0, 1] X_std (trans X_std) [0, 0] (1 / 2) 3 (1 / 3) 2 3
      (1 / 1000) (1 / 10000) (1 / 1000000)).2 X_std_shape rfl⟩

/-- Claim C14 (fails on the code).  For the call `args_const` the predictor column
`[2, 2, 2]` has standard deviation `sx(0) = 0`.  No step before the standardization
rejects the call: the intercept column is removed, `mx = [2]` and `sx = [0]` are computed,
and the loop divides the column by `sx(0) = 0`. -/
theorem fit_divides_by_zero_sx :
    args_const.intercept = 1
      ∧ args_const.X.shed_col 0 = .ok { n_rows := 3, cols := [[2, 2, 2]] }
      ∧ col_means { n_rows := 3, cols := [[2, 2, 2]] } = [2]
      ∧ col_stddevs lib0 { n_rows := 3, cols := [[2, 2, 2]] } = [0]
      ∧ standardize_col [2, 2, 2] 2 0 = .error .nonfinite
      ∧ standardize_loop [2] [0] args_const.warm_start { n_rows := 3, cols := [[2, 2, 2]] }
          args_const.X_sub = .error .nonfinite
      ∧ fit_prepare lib0 args_const = .error .nonfinite
      ∧ fit_approx_quantile_model lib0 args_const = .error .nonfinite := by
  decide!

/-- Claim C14 as amended.  `fit_approx_quantile_model` has no check of `sx`.  For every call
of consistent sizes (`X` well formed, the intercept position within `X`, and on a warm
start `X_sub` well formed with the columns of `X` and `num_samples` rows), with `X1` the
matrix without its intercept column: when no `sx(i)` is zero the standardization runs to
completion and column `i` becomes `(X1.col(i) - mx(i)) / sx(i)`; when some `sx(i)` is zero
no size check fails before the loop divides a column by that zero. -/
theorem fit_prepare_has_no_sx_guard (lib : Lib) (a : FitArgs) (hX : a.X.wf)
    (hi : a.intercept > 0 → (a.intercept - 1).toNat < a.X.n_cols)
    (hw : a.warm_start = 1 → a.X_sub.wf ∧ a.X_sub.n_cols = a.X.n_cols
      ∧ (a.intercept > 0 → a.X_sub.n_rows = a.num_samples)) :
    ∃ X1, (if a.intercept > 0 then a.X.shed_col (a.intercept - 1).toNat else .ok a.X) = .ok X1
      ∧ ((∀ i, i < X1.n_cols → (col_stddevs lib X1).getD i 0 ≠ 0) →
          ∃ s, fit_prepare lib a = .ok s
            ∧ s.mx = col_means X1 ∧ s.sx = col_stddevs lib X1
            ∧ ∀ i, i < X1.n_cols →
                standardize_col (X1.cols.getD i []) (s.mx.getD i 0) (s.sx.getD i 0)
                  = .ok (s.X.cols.getD (i + (if a.intercept > 0 then 1 else 0)) []))
      ∧ ((∃ i, i < X1.n_cols ∧ (col_stddevs lib X1).getD i 0 = 0) →
          fit_prepare lib a = .error .nonfinite
            ∧ fit_approx_quantile_model lib a = .error .nonfinite) := by
  have hfit : fit_prepare lib a = .error .nonfinite →
      fit_approx_quantile_model lib a = .error .nonfinite := by
    intro hp
    simp only [fit_approx_quantile_model, hp, bind, Except.bind]
  by_cases hint : a.intercept > 0
  · have hlt := hi hint
    obtain ⟨X1, hX1⟩ : ∃ X1 : Mat,
        X1 = ⟨a.X.n_rows, a.X.cols.eraseIdx (a.intercept - 1).toNat⟩ := ⟨_, rfl⟩
    have hshed : a.X.shed_col (a.intercept - 1).toNat = .ok X1 := by
      rw [hX1]; exact shed_col_ok a.X _ hlt
    have hwf1 : X1.wf := by rw [hX1]; exact wf_eraseIdx a.X (a.intercept - 1).toNat hX
    have hr1 : X1.n_rows = a.X.n_rows := by rw [hX1]
    have hc1 : X1.n_cols + 1 = a.X.n_cols := (shed_col_ok_shape _ _ _ hshed).2
    by_cases hws : a.warm_start = 1
    · obtain ⟨hsw, hsc, hsr⟩ := hw hws
      have hlt2 : (a.intercept - 1).toNat < a.X_sub.n_cols := by rw [hsc]; exact hlt
      obtain ⟨Xs1, hXs1⟩ : ∃ Xs1 : Mat,
          Xs1 = ⟨a.X_sub.n_rows, a.X_sub.cols.eraseIdx (a.intercept - 1).toNat⟩ := ⟨_, rfl⟩
      have hshed2 : a.X_sub.shed_col (a.intercept - 1).toNat = .ok Xs1 := by
        rw [hXs1]; exact shed_col_ok a.X_sub _ hlt2
      have hwf2 : Xs1.wf := by rw [hXs1]; exact wf_eraseIdx a.X_sub (a.intercept - 1).toNat hsw
      have hrs1 : Xs1.n_rows = a.X_sub.n_rows := by rw [hXs1]
      have hcs1 : Xs1.n_cols + 1 = a.X_sub.n_cols := (shed_col_ok_shape _ _ _ hshed2).2
      refine ⟨X1, by simp only [hint, if_true, hshed], fun hnz => ?_, fun hz => ?_⟩
      · obtain ⟨X2, Xs2, hstd, hr, hcols, hr2⟩ := standardize_loop_ok
          (col_means X1) (col_stddevs lib X1) a.warm_start X1 Xs1
          hwf1 (by simp [col_means, Mat.n_cols]) (by simp [col_stddevs, Mat.n_cols])
          (fun _ => ⟨hwf2, by omega⟩) hnz
        have hj1 := join_rows_ok (ones a.X.n_rows) X2 (by simp [ones, hr, hr1])
        have hj2 := join_rows_ok (ones a.num_samples) Xs2 (by simp [ones, hr2, hrs1, hsr hint])
        have hstd1 := hstd
        rw [hws] at hstd1
        refine ⟨Prepared.mk a.X.n_cols a.X.n_rows (1 / (a.X.n_rows : ℚ))
          ⟨X2.n_rows, ones a.X.n_rows :: X2.cols⟩ ⟨Xs2.n_rows, ones a.num_samples :: Xs2.cols⟩
          (a.y.map (fun v => v - mean a.y)) (a.y_sub.map (fun v => v - mean a.y))
          (col_means X1) (col_stddevs lib X1) (mean a.y)
          (trans ⟨X2.n_rows, ones a.X.n_rows :: X2.cols⟩), ?_, rfl, rfl, ?_⟩
        · unfold fit_prepare
          simp only [hint, hws, if_true, and_self, hshed, hshed2, hstd1, hj1, hj2, bind,
            Except.bind, pure, Except.pure]
        · intro i hil
          simp only [hint, if_true, List.getD_cons_succ]
          exact hcols i hil
      · have hstop := standardize_loop_stops
          (col_means X1) (col_stddevs lib X1) a.warm_start X1 Xs1
          hwf1 (by simp [col_means, Mat.n_cols]) (by simp [col_stddevs, Mat.n_cols])
          (fun _ => ⟨hwf2, by omega⟩) hz
        rw [hws] at hstop
        have hp : fit_prepare lib a = .error .nonfinite := by
          unfold fit_prepare
          simp only [hint, hws, if_true, hshed, hshed2, hstop, bind, Except.bind, pure,
            Except.pure]
        exact ⟨hp, hfit hp⟩
    · refine ⟨X1, by simp only [hint, if_true, hshed], fun hnz => ?_, fun hz => ?_⟩
      · obtain ⟨X2, Xs2, hstd, hr, hcols, hr2⟩ := standardize_loop_ok
          (col_means X1) (col_stddevs lib X1) a.warm_start X1 a.X_sub
          hwf1 (by simp [col_means, Mat.n_cols]) (by simp [col_stddevs, Mat.n_cols])
          (fun h => absurd h hws) hnz
        have hj1 := join_rows_ok (ones a.X.n_rows) X2 (by simp [ones, hr, hr1])
        refine ⟨Prepared.mk a.X.n_cols a.X.n_rows (1 / (a.X.n_rows : ℚ))
          ⟨X2.n_rows, ones a.X.n_rows :: X2.cols⟩ Xs2
          (a.y.map (fun v => v - mean a.y)) a.y_sub
          (col_means X1) (col_stddevs lib X1) (mean a.y)
          (trans ⟨X2.n_rows, ones a.X.n_rows :: X2.cols⟩), ?_, rfl, rfl, ?_⟩
        · unfold fit_prepare
          simp only [hint, hws, if_true, if_false, and_false, hshed, hstd, hj1, bind,
            Except.bind, pure, Except.pure]
        · intro i hil
          simp only [hint, if_true, List.getD_cons_succ]
          exact hcols i hil
      · have hstop := standardize_loop_stops
          (col_means X1) (col_stddevs lib X1) a.warm_start X1 a.X_sub
          hwf1 (by simp [col_means, Mat.n_cols]) (by simp [col_stddevs, Mat.n_cols])
          (fun h => absurd h hws) hz
        have hp : fit_prepare lib a = .error .nonfinite := by
          unfold fit_prepare
          simp only [hint, hws, if_true, if_false, hshed, hstop, bind, Except.bind, pure,
            Except.pure]
        exact ⟨hp, hfit hp⟩
  · refine ⟨a.X, by simp only [hint, if_false], fun hnz => ?_, fun hz => ?_⟩
    · obtain ⟨X2, Xs2, hstd, hr, hcols, hr2⟩ := standardize_loop_ok
        (col_means a.X) (col_stddevs lib a.X) a.warm_start a.X a.X_sub
        hX (by simp [col_means, Mat.n_cols]) (by simp [col_stddevs, Mat.n_cols])
        (fun h => ⟨(hw h).1, (hw h).2.1.ge⟩) hnz
      refine ⟨Prepared.mk a.X.n_cols a.X.n_rows (1 / (a.X.n_rows : ℚ)) X2 Xs2 a.y a.y_sub
        (col_means a.X) (col_stddevs lib a.X) (mean a.y) (trans X2), ?_, rfl, rfl, ?_⟩
      · unfold fit_prepare
        simp only [hint, if_false, false_and, hstd, bind, Except.bind, pure, Except.pure]
      · intro i hil
        simp only [hint, if_false, Nat.add_zero]
        exact hcols i hil
    · have hstop := standardize_loop_stops
        (col_means a.X) (col_stddevs lib a.X) a.warm_start a.X a.X_sub
        hX (by simp [col_means, Mat.n_cols]) (by simp [col_stddevs, Mat.n_cols])
        (fun h => ⟨(hw h).1, (hw h).2.1.ge⟩) hz
      have hp : fit_prepare lib a = .error .nonfinite := by
        unfold fit_prepare
        simp only [hint, if_false, hstop, bind, Except.bind, pure, Except.pure]
      exact ⟨hp, hfit hp⟩

/-- Claim C14 as amended, at the call `args_const`, whose `sx` is `[0]`: the division by
zero is reached. -/
theorem fit_prepare_has_no_sx_guard_witness :
    args_const.X.wf
      ∧ col_stddevs lib0 { n_rows := 3, cols := [[2, 2, 2]] } = [0]
      ∧ ∃ X1, (if args_const.intercept > 0
            then args_const.X.shed_col (args_const.intercept - 1).toNat
            else .ok args_const.X) = .ok X1
          ∧ ((∀ i, i < X1.n_cols → (col_stddevs lib0 X1).getD i 0 ≠ 0) →
              ∃ s, fit_prepare lib0 args_const = .ok s
                ∧ s.mx = col_means X1 ∧ s.sx = col_stddevs lib0 X1
                ∧ ∀ i, i < X1.n_cols →
                    standardize_col (X1.cols.getD i []) (s.mx.getD i 0) (s.sx.getD i 0)
                      = .ok (s.X.cols.getD (i + (if args_const.intercept > 0 then 1 else 0)) []))
          ∧ ((∃ i, i < X1.n_cols ∧ (col_stddevs lib0 X1).getD i 0 = 0) →
              fit_prepare lib0 args_const = .error .nonfinite
                ∧ fit_approx_quantile_model lib0 args_const = .error .nonfinite) :=
  ⟨by decide, by decide!,
    fit_prepare_has_no_sx_guard lib0 args_const (by decide) (fun _ => by decide)
      (fun h => absurd h (by decide))⟩

/-- Claim C15.  For arguments of consistent sizes (in particular `X_t` the transpose of `X`)
`resid = y - X * beta` holds on loop entry and after every number `k` of executions of
the loop body, although `resid` is only updated by `resid -= X * beta_diff`; it holds in
the state the loop ends in, whose `beta` is the value returned. -/
theorem hgd_residual_invariant (y : Vec) (X X_t : Mat) (beta : Vec) (tau : ℚ) (n : Nat)
    (one_over_n : ℚ) (p : Nat) (maxiter : Int) (mu beta_tol check_tol : ℚ)
    (hS : SolverShape y X X_t n p) (hb : beta.length = p) :
    ∃ s0, hgd_init y X beta tau n p = .ok s0
      ∧ (∀ k, ∃ s, hgd_steps X X_t tau mu n one_over_n k s0 = .ok s
          ∧ (mat_vec X s.beta >>= fun Xb => vec_sub y Xb) = .ok s.resid)
      ∧ (∃ s, hgd_loop X X_t tau mu n one_over_n maxiter beta_tol check_tol maxiter.toNat s0
            = .ok s
          ∧ huber_grad_descent y X X_t beta tau n one_over_n p maxiter mu beta_tol check_tol
            = .ok s.beta
          ∧ (mat_vec X s.beta >>= fun Xb => vec_sub y Xb) = .ok s.resid) := by
  have h0 := hgd_init_spec y X X_t beta tau n p hS hb
  have hinv := hgd_init_inv y X X_t beta tau n p hS hb
  refine ⟨_, h0, ?_, ?_⟩
  · intro k
    obtain ⟨s, h1, h2, -⟩ := hgd_steps_inv y X X_t tau mu n p one_over_n hS k _ hinv
    exact ⟨s, h1, resid_eq_of_inv y X X_t n p s hS h2⟩
  · have hi : (hgd_init_val y X beta tau n p).i = 1 := rfl
    obtain ⟨k, s, -, hsteps, hloop, -⟩ :=
      hgd_loop_spec y X X_t tau mu n p one_over_n maxiter beta_tol check_tol hS maxiter.toNat
        _ hinv (by rw [hi]; omega)
    obtain ⟨s', h1, h2, -⟩ := hgd_steps_inv y X X_t tau mu n p one_over_n hS k _ hinv
    rw [hsteps] at h1
    simp only [Except.ok.injEq] at h1
    subst h1
    refine ⟨s, hloop, ?_, resid_eq_of_inv y X X_t n p s hS h2⟩
    simp only [huber_grad_descent, h0, hloop, bind, Except.bind, pure, Except.pure]

/-- Claim C15 at the standardized design `X_std`, `y = [-1, 0, 1]`, `beta = [0, 0]`. -/
theorem hgd_residual_invariant_witness :
    SolverShape [-1, 0, 1] X_std (trans X_std) 3 2 ∧ ([0, 0] : Vec).length = 2
      ∧ ∃ s0, hgd_init [-1, 0, 1] X_std [0, 0] (1 / 2) 3 2 = .ok s0
        ∧ (∀ k, ∃ s, hgd_steps X_std (trans X_std) (1 / 2) (1 / 1000) 3 (1 / 3) k s0 = .ok s
            ∧ (mat_vec X_std s.beta >>= fun Xb => vec_sub [-1, 0, 1] Xb) = .ok s.resid)
        ∧ (∃ s, hgd_loop X_std (trans X_std) (1 / 2) (1 / 1000) 3 (1 / 3) 3 (1 / 10000)
              (1 / 1000000) (3 : Int).toNat s0 = .ok s
            ∧ huber_grad_descent [-1, 0, 1] X_std (trans X_std) [0, 0] (1 / 2) 3 (1 / 3) 2 3
              (1 / 1000) (1 / 10000) (1 / 1000000) = .ok s.beta
            ∧ (mat_vec X_std s.beta >>= fun Xb => vec_sub [-1, 0, 1] Xb) = .ok s.resid) :=
  ⟨X_std_shape, rfl,
    hgd_residual_invariant [-1, 0, 1] X_std (trans X_std) [0, 0] (1 / 2) 3 (1 / 3) 2 3
      (1 / 1000) (1 / 10000) (1 / 1000000) X_std_shape rfl⟩

/-- Claim C16 (fails on the code).  With `tau = 1/2`, `maxiter = 10000`, the default
tolerances and an initial `beta = [0, 1]` that fits `y = [-1, 0, 1]` exactly, the state on
loop entry has `i = 1`, `delta = 2` and `checkfun_diff = 0`: the loop condition is false
when first evaluated, the body is never executed and the initial `beta` is returned. -/
theorem hgd_loop_not_entered_on_exact_fit :
    SolverShape [-1, 0, 1] X_std (trans X_std) 3 2
      ∧ (hgd_init [-1, 0, 1] X_std [0, 1] (1 / 2) 3 2).map
          (fun s0 => (s0.i, s0.delta, s0.checkfun_diff,
            hgd_continue 10000 (1 / 10000) (1 / 1000000) s0))
          = .ok (1, 2, 0, false)
      ∧ huber_grad_descent [-1, 0, 1] X_std (trans X_std) [0, 1] (1 / 2) 3 (1 / 3) 2 10000
          (1 / 1000000000000000) (1 / 10000) (1 / 1000000) = .ok [0, 1] := by
  refine ⟨X_std_shape, by decide!, by decide!⟩

/-- Claim C16 as amended.  For `tau` in the open unit interval the initial
`delta = min(1/tau, 1/(1-tau))` lies in `(1, 2]`, so it never satisfies `delta < 0.01`;
with `i = 1` the loop condition is true when first evaluated if and only if
`maxiter > 1` and `loss * delta > check_tol`, where `loss` is `checkfun` of the initial
residual `y - X * beta`.  In particular it is true whenever `maxiter > 1` and the initial
loss exceeds a non-negative `check_tol`. -/
theorem hgd_first_test (y : Vec) (X X_t : Mat) (beta : Vec) (tau : ℚ) (n p : Nat)
    (maxiter : Int) (beta_tol check_tol : ℚ)
    (hS : SolverShape y X X_t n p) (hb : beta.length = p) (h0 : 0 < tau) (h1 : tau < 1) :
    ∃ s0 r loss, hgd_init y X beta tau n p = .ok s0
      ∧ (mat_vec X beta >>= fun Xb => vec_sub y Xb) = .ok r ∧ checkfun r tau n = .ok loss
      ∧ s0.checkfun_diff = loss ∧ s0.delta = min (1 / tau) (1 / (1 - tau))
      ∧ 1 < s0.delta ∧ s0.delta ≤ 2 ∧ 0 ≤ loss
      ∧ (hgd_continue maxiter beta_tol check_tol s0 = true
          ↔ 1 < maxiter ∧ loss * min (1 / tau) (1 / (1 - tau)) > check_tol)
      ∧ (1 < maxiter → 0 ≤ check_tol → check_tol < loss
          → hgd_continue maxiter beta_tol check_tol s0 = true) := by
  have hinit := hgd_init_spec y X X_t beta tau n p hS hb
  have hinv := hgd_init_inv y X X_t beta tau n p hS hb
  obtain ⟨hd1, hd2⟩ := init_delta_bounds tau h0 h1
  have hres := resid_eq_of_inv y X X_t n p _ hS hinv
  have hrl : (hgd_init_val y X beta tau n p).resid.length = n := hinv.1.2.2.2.2.1
  have hloss := checkfun_ok (hgd_init_val y X beta tau n p).resid tau n hrl.ge
  have hnn : 0 ≤ checkfun_val (hgd_init_val y X beta tau n p).resid tau n := by
    rw [checkfun_val, sum_map_range]
    exact Finset.sum_nonneg fun i _ => checkfun1_nonneg _ _ h0 h1
  have hiff : hgd_continue maxiter beta_tol check_tol (hgd_init_val y X beta tau n p) = true
      ↔ 1 < maxiter ∧ checkfun_val (hgd_init_val y X beta tau n p).resid tau n
          * min (1 / tau) (1 / (1 - tau)) > check_tol := by
    have hnot : ¬ min (1 / tau) (1 / (1 - tau)) < 1 / 100 := by
      intro h; linarith
    simp only [hgd_continue, hgd_init_val, Bool.and_eq_true, Bool.or_eq_true, decide_eq_true_eq,
      beq_self_eq_true, or_true, and_true, hnot, or_false, Nat.cast_one]
  refine ⟨_, _, _, hinit, hres, hloss, rfl, rfl, hd1, hd2, hnn, hiff, ?_⟩
  intro hm hc hl
  rw [hiff]
  refine ⟨hm, ?_⟩
  calc check_tol < checkfun_val (hgd_init_val y X beta tau n p).resid tau n := hl
    _ = checkfun_val (hgd_init_val y X beta tau n p).resid tau n * 1 := (mul_one _).symm
    _ ≤ _ := mul_le_mul_of_nonneg_left hd1.le hnn

/-- Claim C16 as amended, at `X_std`, `y = [-1, 0, 1]`, `beta = [0, 0]`, `tau = 1/2`. -/
theorem hgd_first_test_witness :
    SolverShape [-1, 0, 1] X_std (trans X_std) 3 2 ∧ ([0, 0] : Vec).length = 2
      ∧ (0 : ℚ) < 1 / 2 ∧ (1 / 2 : ℚ) < 1
      ∧ ∃ s0 r loss, hgd_init [-1, 0, 1] X_std [0, 0] (1 / 2) 3 2 = .ok s0
        ∧ (mat_vec X_std [0, 0] >>= fun Xb => vec_sub [-1, 0, 1] Xb) = .ok r
        ∧ checkfun r (1 / 2) 3 = .ok loss
        ∧ s0.checkfun_diff = loss ∧ s0.delta = min (1 / (1 / 2)) (1 / (1 - 1 / 2))
        ∧ 1 < s0.delta ∧ s0.delta ≤ 2 ∧ 0 ≤ loss
        ∧ (hgd_continue 10000 (1 / 10000) (1 / 1000000) s0 = true
            ↔ 1 < (10000 : Int) ∧ loss * min (1 / (1 / 2)) (1 / (1 - 1 / 2)) > 1 / 1000000)
        ∧ (1 < (10000 : Int) → (0 : ℚ) ≤ 1 / 1000000 → 1 / 1000000 < loss
            → hgd_continue 10000 (1 / 10000) (1 / 1000000) s0 = true) :=
  ⟨X_std_shape, rfl, by norm_num, by norm_num,
    hgd_first_test [-1, 0, 1] X_std (trans X_std) [0, 0] (1 / 2) 3 2 10000 (1 / 10000)
      (1 / 1000000) X_std_shape rfl (by norm_num) (by norm_num)⟩

/-- Claim C17.  For arguments of consistent sizes and every number `k` of completed
iterations, the next iteration runs and its step size is `min(a1, a2, 2)` with
`a1 = cross / (grad_diff . grad_diff)` and `a2 = (beta_diff . beta_diff) / cross` when
`cross > 0`, and 1 otherwise; when `cross > 0` both divisors are non-zero; and the step
size satisfies `0 < delta ≤ 2`. -/
theorem hgd_step_size_bounded (y : Vec) (X X_t : Mat) (beta : Vec) (tau : ℚ) (n : Nat)
    (one_over_n : ℚ) (p : Nat) (mu : ℚ)
    (hS : SolverShape y X X_t n p) (hb : beta.length = p) :
    ∃ s0, hgd_init y X beta tau n p = .ok s0
      ∧ ∀ k, ∃ s s' gg bb, hgd_steps X X_t tau mu n one_over_n k s0 = .ok s
          ∧ hgd_step X X_t tau mu n one_over_n s = .ok s'
          ∧ dot s.grad_diff s.grad_diff = .ok gg ∧ dot s.beta_diff s.beta_diff = .ok bb
          ∧ (s.cross > 0 → gg ≠ 0 ∧ s.cross ≠ 0
              ∧ s'.delta = min (min (s.cross / gg) (bb / s.cross)) 2)
          ∧ (¬ s.cross > 0 → s'.delta = 1)
          ∧ 0 < s'.delta ∧ s'.delta ≤ 2 := by
  have h0 := hgd_init_spec y X X_t beta tau n p hS hb
  have hinv := hgd_init_inv y X X_t beta tau n p hS hb
  refine ⟨_, h0, fun k => ?_⟩
  obtain ⟨s, h1, h2, -⟩ := hgd_steps_inv y X X_t tau mu n p one_over_n hS k _ hinv
  obtain ⟨d, g, -, hstep, -⟩ := hgd_step_inv y X X_t tau mu n p one_over_n s hS h2
  have hdel : (hgd_next X tau n s d g).delta = hgd_delta s := rfl
  obtain ⟨b1, b2, b3, b4⟩ := hgd_delta_bounds s h2.2.2.2.1
  refine ⟨s, _, _, _, h1, hstep, dot_ok _ _ rfl, dot_ok _ _ rfl, ?_, ?_, ?_, ?_⟩
  · rw [hdel]; exact b1
  · rw [hdel]; exact b2
  · rw [hdel]; exact b3
  · rw [hdel]; exact b4

/-- Claim C17 at the standardized design `X_std`, `y = [-1, 0, 1]`, `beta = [0, 0]`. -/
theorem hgd_step_size_bounded_witness :
    SolverShape [-1, 0, 1] X_std (trans X_std) 3 2 ∧ ([0, 0] : Vec).length = 2
      ∧ ∃ s0, hgd_init [-1, 0, 1] X_std [0, 0] (1 / 2) 3 2 = .ok s0
        ∧ ∀ k, ∃ s s' gg bb, hgd_steps X_std (trans X_std) (1 / 2) (1 / 1000) 3 (1 / 3) k s0 = .ok s
          ∧ hgd_step X_std (trans X_std) (1 / 2) (1 / 1000) 3 (1 / 3) s = .ok s'
          ∧ dot s.grad_diff s.grad_diff = .ok gg ∧ dot s.beta_diff s.beta_diff = .ok bb
          ∧ (s.cross > 0 → gg ≠ 0 ∧ s.cross ≠ 0
              ∧ s'.delta = min (min (s.cross / gg) (bb / s.cross)) 2)
          ∧ (¬ s.cross > 0 → s'.delta = 1)
          ∧ 0 < s'.delta ∧ s'.delta ≤ 2 :=
  ⟨X_std_shape, rfl,
    hgd_step_size_bounded [-1, 0, 1] X_std (trans X_std) [0, 0] (1 / 2) 3 (1 / 3) 2 (1 / 1000)
      X_std_shape rfl⟩

/-- Claim C18.  For arguments of consistent sizes, at the head of every loop iteration
`last_beta = beta`; so `beta - last_beta` is the zero vector, the extrapolation term
`(i - 1) / (i + 2) * beta_diff` is the zero vector, the iteration's update is
`beta := beta + delta * grad`, and `beta_diff = delta * grad` afterwards. -/
theorem hgd_momentum_is_zero (y : Vec) (X X_t : Mat) (beta : Vec) (tau : ℚ) (n : Nat)
    (one_over_n : ℚ) (p : Nat) (mu : ℚ)
    (hS : SolverShape y X X_t n p) (hb : beta.length = p) :
    ∃ s0, hgd_init y X beta tau n p = .ok s0
      ∧ ∀ k, ∃ s s', hgd_steps X X_t tau mu n one_over_n k s0 = .ok s
          ∧ hgd_step X X_t tau mu n one_over_n s = .ok s'
          ∧ s.last_beta = s.beta
          ∧ vec_sub s.beta s.last_beta = .ok (zeros p)
          ∧ vec_scale (((s.i : ℚ) - 1) / ((s.i : ℚ) + 2)) (zeros p) = zeros p
          ∧ vec_add s.beta (vec_scale s'.delta s'.grad) = .ok s'.beta
          ∧ s'.beta_diff = vec_scale s'.delta s'.grad := by
  have h0 := hgd_init_spec y X X_t beta tau n p hS hb
  have hinv := hgd_init_inv y X X_t beta tau n p hS hb
  refine ⟨_, h0, fun k => ?_⟩
  obtain ⟨s, h1, h2, -⟩ := hgd_steps_inv y X X_t tau mu n p one_over_n hS k _ hinv
  obtain ⟨d, g, hg, hstep, -⟩ := hgd_step_inv y X X_t tau mu n p one_over_n s hS h2
  obtain ⟨hsh, hl, -, -, -⟩ := h2
  obtain ⟨c1, c2, c3, -⟩ := hgd_next_beta X tau n s d g hl (hg.trans hsh.1.symm)
  refine ⟨s, _, h1, hstep, hl, ?_, vec_scale_zeros _ _, ?_, c3⟩
  · rw [vec_sub_ok _ _ (hsh.1.trans hsh.2.1.symm), c1, hsh.1]
  · have hgr : (hgd_next X tau n s d g).grad = g := rfl
    rw [hgr, vec_add_ok _ _ (by simp [vec_scale, hsh.1, hg]), c2]

/-- Claim C18 at the standardized design `X_std`, `y = [-1, 0, 1]`, `beta = [0, 0]`. -/
theorem hgd_momentum_is_zero_witness :
    SolverShape [-1, 0, 1] X_std (trans X_std) 3 2 ∧ ([0, 0] : Vec).length = 2
      ∧ ∃ s0, hgd_init [-1, 0, 1] X_std [0, 0] (1 / 2) 3 2 = .ok s0
        ∧ ∀ k, ∃ s s', hgd_steps X_std (trans X_std) (1 / 2) (1 / 1000) 3 (1 / 3) k s0 = .ok s
          ∧ hgd_step X_std (trans X_std) (1 / 2) (1 / 1000) 3 (1 / 3) s = .ok s'
          ∧ s.last_beta = s.beta
          ∧ vec_sub s.beta s.last_beta = .ok (zeros 2)
          ∧ vec_scale (((s.i : ℚ) - 1) / ((s.i : ℚ) + 2)) (zeros 2) = zeros 2
          ∧ vec_add s.beta (vec_scale s'.delta s'.grad) = .ok s'.beta
          ∧ s'.beta_diff = vec_scale s'.delta s'.grad :=
  ⟨X_std_shape, rfl,
    hgd_momentum_is_zero [-1, 0, 1] X_std (trans X_std) [0, 0] (1 / 2) 3 (1 / 3) 2 (1 / 1000)
      X_std_shape rfl⟩

/-- Claim C19.  With `intercept > 0`, a solver result `b0, b1, ...` on the standardized
data, means `mx`, standard deviations `sx` (none zero) and response mean `my`, the
coefficient un-standardization returns `c0, c1, ...` with `c_j = b_j / sx(j-1)` and
`c0 = b0 + my - Σ_j mx(j-1) * c_j`, and for every row `x` of original predictor values
`c0 + Σ_j x_j * c_j = my + b0 + Σ_j ((x_j - mx(j-1)) / sx(j-1)) * b_j`. -/
theorem fit_unstandardize_keeps_predictions (a : FitArgs) (s : Prepared) (b0 : ℚ) (bs : Vec)
    (hi : a.intercept > 0) (hX : s.X.wf) (hXc : s.X.n_cols = s.p) (hp : s.p = bs.length + 1)
    (hbs : 1 ≤ bs.length) (hmx : s.mx.length = bs.length) (hsx : s.sx.length = bs.length)
    (hsx0 : ∀ j, j < bs.length → s.sx.getD j 0 ≠ 0) :
    ∃ X' c0 cs, fit_unstandardize a s (b0 :: bs) = .ok (X', c0 :: cs)
      ∧ cs.length = bs.length
      ∧ (∀ j, j < bs.length → cs.getD j 0 = bs.getD j 0 / s.sx.getD j 0)
      ∧ c0 = b0 + s.my - ∑ j in Finset.range bs.length, s.mx.getD j 0 * cs.getD j 0
      ∧ ∀ x : Vec, x.length = bs.length →
          c0 + ∑ j in Finset.range bs.length, x.getD j 0 * cs.getD j 0
            = s.my + b0 + ∑ j in Finset.range bs.length,
                (x.getD j 0 - s.mx.getD j 0) / s.sx.getD j 0 * bs.getD j 0 := by
  obtain ⟨X', hloop, -, -, -⟩ := unstandardize_loop_ok s.mx s.sx 1 s.X.n_cols 1 s.X hX le_rfl
    (by intro i hil; rw [hmx]; omega) (by intro i hil; rw [hsx]; omega)
  have hrows : vec_rows (b0 :: bs) 1 (s.p - 1) = .ok bs := by
    have : s.p - 1 + 1 = bs.length + 1 := by omega
    simp [vec_rows, hp, hbs]
  have hdiv : vec_div bs s.sx = .ok (List.zipWith (fun x y => x / y) bs s.sx) := by
    simp [vec_div, hsx]
  have hcl : (List.zipWith (fun x y => x / y) bs s.sx).length = bs.length := by simp [hsx]
  have hdot := dot_ok s.mx (List.zipWith (fun x y => x / y) bs s.sx) (by rw [hcl, hmx])
  have hcs : ∀ j, j < bs.length →
      (List.zipWith (fun x y => x / y) bs s.sx).getD j 0 = bs.getD j 0 / s.sx.getD j 0 := by
    intro j hj
    have hj2 : j < s.sx.length := by rw [hsx]; exact hj
    simp [List.getD_eq_getElem?_getD, List.getElem?_zipWith, List.getElem?_eq_getElem hj,
      List.getElem?_eq_getElem hj2]
  have hsum := sum_zipWith_mul s.mx (List.zipWith (fun x y => x / y) bs s.sx) bs.length hmx hcl
  refine ⟨X', b0 + (s.my - (List.zipWith (fun x y => x * y) s.mx
      (List.zipWith (fun x y => x / y) bs s.sx)).sum),
    List.zipWith (fun x y => x / y) bs s.sx, ?_, hcl, hcs, ?_, ?_⟩
  · unfold fit_unstandardize
    rw [if_pos hi]
    simp only [hloop, hrows, hdiv, hdot, bind, Except.bind, pure, Except.pure]
    have hdrop : List.drop s.p (b0 :: bs) = [] := by
      apply List.drop_eq_nil_of_le
      simp [hp]
    simp [hdrop, vec_at, vec_set]
  · rw [hsum]; ring
  · intro x hx
    rw [hsum]
    have e : ∀ j ∈ Finset.range bs.length,
        (x.getD j 0 - s.mx.getD j 0) / s.sx.getD j 0 * bs.getD j 0
          = x.getD j 0 * (List.zipWith (fun x y => x / y) bs s.sx).getD j 0
            - s.mx.getD j 0 * (List.zipWith (fun x y => x / y) bs s.sx).getD j 0 := by
      intro j hj
      have hj' := Finset.mem_range.mp hj
      rw [hcs j hj']
      have := hsx0 j hj'
      field_simp
      ring
    rw [Finset.sum_congr rfl e, Finset.sum_sub_distrib]
    ring

/-- Claim C19 at the call `args_warm`: the solver result `[0, 1]` on the standardized data
becomes `[5/2, 1/2]`. -/
theorem fit_unstandardize_keeps_predictions_witness :
    args_warm.intercept > 0 ∧ fit_prepare lib0 args_warm = .ok prep_warm
      ∧ (fit_unstandardize args_warm prep_warm [0, 1]).map (fun r => r.2) = .ok [5 / 2, 1 / 2]
      ∧ ∃ X' c0 cs, fit_unstandardize args_warm prep_warm (0 :: [1]) = .ok (X', c0 :: cs)
        ∧ cs.length = ([1] : Vec).length
        ∧ (∀ j, j < ([1] : Vec).length →
            cs.getD j 0 = ([1] : Vec).getD j 0 / prep_warm.sx.getD j 0)
        ∧ c0 = 0 + prep_warm.my
            - ∑ j in Finset.range ([1] : Vec).length, prep_warm.mx.getD j 0 * cs.getD j 0
        ∧ ∀ x : Vec, x.length = ([1] : Vec).length →
            c0 + ∑ j in Finset.range ([1] : Vec).length, x.getD j 0 * cs.getD j 0
              = prep_warm.my + 0 + ∑ j in Finset.range ([1] : Vec).length,
                  (x.getD j 0 - prep_warm.mx.getD j 0) / prep_warm.sx.getD j 0
                    * ([1] : Vec).getD j 0 :=
  ⟨by decide, by decide!, by decide!,
    fit_unstandardize_keeps_predictions args_warm prep_warm 0 [1] (by decide) (by decide)
      rfl rfl (by decide) rfl rfl
      (by
        intro j hj
        have hj0 : j = 0 := by simpa using hj
        subst hj0
        decide!)⟩

/-- Claim C20.  With `warm_start ≠ 1`, two calls that agree on every argument except
element 0 of `init_beta` have the same outcome, in particular the same returned
coefficients: element 0 is overwritten by the quantile of
`y - X.cols(1, p - 1) * init_beta.rows(1, p - 1)`, which does not read it, before the
solver runs.  Nothing depends on the value of `intercept`. -/
theorem fit_ignores_init_beta_zero (lib : Lib) (a : FitArgs) (b0 b0' : ℚ) (rest : Vec)
    (hw : a.warm_start ≠ 1) :
    fit_approx_quantile_model lib { a with init_beta := b0 :: rest }
        = fit_approx_quantile_model lib { a with init_beta := b0' :: rest }
      ∧ (∀ s : Prepared,
          fit_init_intercept lib { a with init_beta := b0 :: rest } s (b0 :: rest)
            = fit_init_intercept lib { a with init_beta := b0' :: rest } s (b0' :: rest))
      ∧ ∀ (s : Prepared) (b : Vec),
          fit_init_intercept lib { a with init_beta := b0 :: rest } s (b0 :: rest) = .ok b →
            ∃ q, b = q :: rest := by
  have hinit : ∀ s : Prepared,
      fit_init_intercept lib { a with init_beta := b0 :: rest } s (b0 :: rest)
        = fit_init_intercept lib { a with init_beta := b0' :: rest } s (b0' :: rest) := by
    intro s
    simp only [fit_init_intercept, vec_rows, vec_set, List.length_cons, List.take_succ_cons,
      List.drop_succ_cons, List.drop_zero, List.set_cons_zero, Nat.zero_lt_succ, if_true]
  refine ⟨?_, hinit, ?_⟩
  · have hprep : fit_prepare lib { a with init_beta := b0 :: rest }
        = fit_prepare lib { a with init_beta := b0' :: rest } := rfl
    have hsolve : ∀ s : Prepared, fit_solve lib { a with init_beta := b0 :: rest } s
        = fit_solve lib { a with init_beta := b0' :: rest } s := by
      intro s
      simp only [fit_solve, fit_warm_start, hw, if_false, pure, Except.pure, bind, Except.bind]
      rw [hinit s]
    simp only [fit_approx_quantile_model, hprep, hsolve]
    rfl
  · intro s b h
    unfold fit_init_intercept at h
    simp only [bind_eq_ok] at h
    obtain ⟨_, _, _, _, _, _, r, _, h⟩ := h
    simp only [vec_set, List.length_cons, Nat.zero_lt_succ, if_true, List.set_cons_zero,
      Except.ok.injEq] at h
    exact ⟨_, h.symm⟩

/-- Claim C20 at the call `args_plain` (no intercept), with `init_beta = [0, 0]` and
`init_beta = [7, 0]`: both calls return `[2, 0]`. -/
theorem fit_ignores_init_beta_zero_witness :
    args_plain.warm_start ≠ 1
      ∧ fit_approx_quantile_model lib0 { args_plain with init_beta := [0, 0] }
          = fit_approx_quantile_model lib0 { args_plain with init_beta := [7, 0] }
      ∧ (fit_approx_quantile_model lib0 { args_plain with init_beta := [7, 0] }).map
          (fun r => r.beta) = .ok [2, 0] :=
  ⟨by decide,
    (fit_ignores_init_beta_zero lib0 args_plain 0 7 [0] (by decide)).1,
    by decide!⟩

end Fqr
